import Mathlib

/-!
Verification development for the PostgreSQL gate of smdba
(src/smdba/postgresqlgate.py).

The Python functions are shallowly embedded: strings are lists of
characters, Python dictionaries are association lists threaded
explicitly, the filesystem is an association list from paths to file
contents, and process side effects (shutdown, tar, restart) are
recorded as explicit action values.  Each embedded definition cites the
source lines it translates.
-/

set_option autoImplicit false

deriving instance DecidableEq for Except

namespace Smdba

/-- A Python string, modelled as its list of characters. -/
abbrev Str := List Char

/-- The whitespace characters removed by Python `str.strip()`. -/
def isSpaceChar (c : Char) : Bool :=
  c == ' ' || c == '\t' || c == '\n' || c == '\r' || c == '\x0b' || c == '\x0c'

/-- Python `str.lstrip()`. -/
def lstrip (s : Str) : Str := s.dropWhile isSpaceChar

/-- Python `str.rstrip()`, written recursively for easy induction. -/
def rstrip : Str → Str
  | [] => []
  | c :: t =>
    match rstrip t with
    | [] => if isSpaceChar c then [] else [c]
    | r => c :: r

/-- Python `str.strip()`. -/
def strip (s : Str) : Str := rstrip (lstrip s)

/-- Python `s.split(sep)` for a one-character separator (all pieces). -/
def splitOnChar (sep : Char) : Str → List Str
  | [] => [[]]
  | c :: cs =>
    if c = sep then [] :: splitOnChar sep cs
    else
      match splitOnChar sep cs with
      | [] => [[c]]
      | h :: t => (c :: h) :: t

/-- Python `s.split(sep, 1)` when the separator occurs: the pieces
before and after the first occurrence; `none` when it does not occur. -/
def splitFirst (sep : Char) : Str → Option (Str × Str)
  | [] => none
  | c :: cs =>
    if c = sep then some ([], cs)
    else (splitFirst sep cs).map (fun p => (c :: p.1, p.2))

/-- Python `sep.join(parts)` for a one-character separator. -/
def joinSep (sep : Char) : List Str → Str
  | [] => []
  | [t] => t
  | t :: ts => t ++ sep :: joinSep sep ts

/-- A Python dictionary with string keys and values, modelled as an
association list in insertion order. -/
abbrev Doc := List (Str × Str)

/-- Python `d.get(k)` / `d[k]` lookup. -/
def dget (d : Doc) (k : Str) : Option Str :=
  match d with
  | [] => none
  | (k', v) :: t => if k' = k then some v else dget t k

/-- Python `d[k] = v`: replace the value at an existing key, otherwise
add the key. -/
def dset (d : Doc) (k v : Str) : Doc :=
  match d with
  | [] => [(k, v)]
  | (k', v') :: t => if k' = k then (k, v) :: t else (k', v') :: dset t k v

/-- Removal of a key (used to model `os.rename` taking a path away). -/
def dremove (d : Doc) (k : Str) : Doc :=
  d.filter (fun p => decide (p.1 ≠ k))

/-- Python truthiness test `not s` for an optional string: `None` and
the empty string are falsy. -/
def pyFalsy (v : Option Str) : Bool :=
  match v with
  | none => true
  | some s => decide (s = [])

/-- Python `str(x)` for an optional string, as in
`str(conf.get(item, None))`: `None` prints as `"None"`. -/
def pyStrOfOpt (v : Option Str) : Str :=
  match v with
  | none => "None".toList
  | some s => s

/-- Python 2 lexicographic `<` on strings (byte-wise comparison). -/
def pyStrLt : Str → Str → Bool
  | _, [] => false
  | [], _ :: _ => true
  | a :: as', b :: bs => if a = b then pyStrLt as' bs else decide (a < b)

/-! ## Config Store Adapter: reading (`_get_conf`, lines 235-253) -/

/-- One iteration of the loop of `_get_conf` (lines 243-251): strip the
line, skip blank and full-line-comment lines, cut a trailing comment,
split at the first `=`, strip key and value, store into the dictionary.
A non-blank, non-comment line without `=` is a parse error carrying the
offending line. -/
def parseConfLine (rawLine : Str) (conf : Doc) : Except Str Doc :=
  let line := strip rawLine
  if line = [] then .ok conf
  else if line.head? = some '#' then .ok conf
  else
    match splitFirst '=' (strip (line.takeWhile (fun c => decide (c ≠ '#')))) with
    | none => .error line
    | some (a, b) => .ok (dset conf (strip a) (strip b))

/-- The loop of `_get_conf` over all lines. -/
def parseConfLines (lines : List Str) (conf : Doc) : Except Str Doc :=
  match lines with
  | [] => .ok conf
  | l :: rest =>
    match parseConfLine l conf with
    | .error e => .error e
    | .ok c => parseConfLines rest c

/-- `_get_conf` (lines 235-253) on the text of an existing file:
read the lines, build the dictionary. -/
def get_conf (text : Str) : Except Str Doc :=
  parseConfLines (splitOnChar '\n' text) []

/-! ## Config Store Adapter: writing (`_write_conf`, lines 256-278) -/

/-- The key-value rendering of `_write_conf` (line 271):
`cfg.write('%s = %s\n' % items)` for one item. -/
def renderConfLine (p : Str × Str) : Str :=
  p.1 ++ ' ' :: '=' :: ' ' :: p.2 ++ ['\n']

/-- The key-value rendering of `_write_conf` for a whole dictionary. -/
def renderConf (d : Doc) : Str :=
  (d.map renderConfLine).flatten

/-- The tabular rendering of `_write_conf` (line 273):
`cfg.write('\t'.join(items) + "\n")` for each row. -/
def renderHbaLine (row : List Str) : Str :=
  joinSep '\t' row ++ ['\n']

/-- The tabular rendering of `_write_conf` for a whole table. -/
def renderHba (t : List (List Str)) : Str :=
  (t.map renderHbaLine).flatten

/-- The backup name of `_write_conf` (lines 262-264): the path is split
at the dots and the timestamp `pref` is inserted before the last
component. -/
def backupPath (confPath : Str) (pref : Str) : Str :=
  let parts := splitOnChar '.' confPath
  joinSep '.' parts.dropLast ++ '.' :: pref ++ '.' :: (parts.getLast?.getD [])

/-- The filesystem, modelled as a finite map from paths to file
contents (same association-list representation as `Doc`). -/
abbrev FS := List (Str × Str)

/-- Outcome of `_write_conf`: the filesystem afterwards, the returned
backup path, and whether the final `IOError` was raised. -/
structure WriteResult where
  fs : FS
  backup : Option Str
  ioError : Bool
deriving DecidableEq, Repr

/-- `_write_conf` (lines 256-278).  If the path exists it is renamed to
the timestamped backup sibling first.  Then: a key-value dictionary
alone is rendered line by line; a table alone is rendered row by row;
with both supplied the file is opened for writing and closed without
content (an empty file); with neither supplied the `IOError`
"Cannot write two different types of config into the same file!" is
raised (after the rename already happened).  The timestamp string is a
parameter, as the clock is ambient state. -/
def write_conf (fs0 : FS) (confPath : Str) (table : List (List Str))
    (data : Doc) (pref : Str) : WriteResult :=
  let bkPath := backupPath confPath pref
  let step1 : FS × Option Str :=
    match dget fs0 confPath with
    | some content => (dset (dremove fs0 confPath) bkPath content, some bkPath)
    | none => (fs0, none)
  if data ≠ [] ∨ table ≠ [] then
    let content :=
      if data ≠ [] ∧ table = [] then renderConf data
      else if table ≠ [] ∧ data = [] then renderHba table
      else []
    { fs := dset step1.1 confPath content, backup := step1.2, ioError := false }
  else
    { fs := step1.1, backup := step1.2, ioError := true }

/-! ## pg_hba.conf reading (`do_system_check`, lines 860-864) -/

/-- One line of the pg_hba read loop: strip, skip blank and comment
lines, replace tabs by spaces, split at spaces, drop empty tokens. -/
def parseHbaLine (rawLine : Str) : Option (List Str) :=
  let line := strip rawLine
  if line = [] then none
  else if line.head? = some '#' then none
  else some (((splitOnChar ' ' (line.map (fun c => if c = '\t' then ' ' else c))).filter
    (fun t => !t.isEmpty)))

/-- The pg_hba read loop over a whole file. -/
def parseHba (text : Str) : List (List Str) :=
  (splitOnChar '\n' text).filterMap parseHbaLine

/-! ## Reconciliation Engine (`do_system_check`, lines 796-898) -/

def kWalLevel : Str := "wal_level".toList
def kMaxWalSenders : Str := "max_wal_senders".toList
def kWalKeepSegments : Str := "wal_keep_segments".toList
def kArchiveMode : Str := "archive_mode".toList
def kArchiveCommand : Str := "archive_command".toList
def kStdConformingStrings : Str := "standard_conforming_strings".toList
def kByteaOutput : Str := "bytea_output".toList

/-- The autotuning merge (lines 814-818): for each profile item, flag a
change when the stringified current value differs, then store the
value.  The profile stands for `PgTune().estimate().config` with its
values already passed through `str`. -/
def tuneFold (profile : Doc) (st : Doc × Bool) : Doc × Bool :=
  profile.foldl
    (fun st p =>
      let changed := if st.2 = false ∧ pyStrOfOpt (dget st.1 p.1) ≠ p.2 then true else st.2
      (dset st.1 p.1 p.2, changed))
    st

/-- One generic policy branch of `do_system_check`: when the current
value of `key` violates the rule (`bad`), override it with `val` and
set `changed`; otherwise leave everything untouched. -/
def ruleStep (key : Str) (bad : Option Str → Bool) (val : Str)
    (st : Doc × Bool) : Doc × Bool :=
  if bad (dget st.1 key) = true then (dset st.1 key val, true) else st

/-- Lines 820-822: WAL level must not be absent or `minimal`.  This
branch stores `'archive'` but, unlike every other branch, does NOT set
`changed`. -/
def walLevelStep (st : Doc × Bool) : Doc × Bool :=
  if pyFalsy (dget st.1 kWalLevel) = true ∨ dget st.1 kWalLevel = some ("minimal".toList)
  then (dset st.1 kWalLevel ("archive".toList), st.2) else st

/-- Line 825: `not conf.get('max_wal_senders') or conf.get('max_wal_senders') < '5'`,
a Python 2 string comparison. -/
def sendersBad (v : Option Str) : Bool :=
  pyFalsy v || pyStrLt (v.getD []) ("5".toList)

/-- Line 830: `conf.get('wal_keep_segments', '0') == '0'`. -/
def keepSegBad (v : Option Str) : Bool :=
  decide (v.getD ("0".toList) = ("0".toList))

/-- Line 835: `conf.get('archive_mode', 'off') != 'on'`. -/
def archiveModeBad (v : Option Str) : Bool :=
  decide (v.getD ("off".toList) ≠ ("on".toList))

/-- Line 840: `conf.get('archive_command', '') != "'/bin/true'"`. -/
def archiveCmdBad (v : Option Str) : Bool :=
  decide (v.getD [] ≠ ("'/bin/true'".toList))

/-- Line 845: `conf.get('standard_conforming_strings', 'on') != "'off'"`. -/
def scsBad (v : Option Str) : Bool :=
  decide (v.getD ("on".toList) ≠ ("'off'".toList))

/-- Line 850: `conf.get('bytea_output', '') != "'escape'"`. -/
def byteaBad (v : Option Str) : Bool :=
  decide (v.getD [] ≠ ("'escape'".toList))

/-- The postgresql.conf policy chain of `do_system_check`
(lines 813-852), as a pure function from the parsed configuration to
the new configuration and the `changed` flag: the autotuning merge,
then the seven policy branches in source order. -/
def confReconcile (autotuning : Bool) (profile : Doc) (conf0 : Doc) : Doc × Bool :=
  let st0 := if autotuning then tuneFold profile (conf0, false) else (conf0, false)
  let st1 := walLevelStep st0
  let st2 := ruleStep kMaxWalSenders sendersBad ("5".toList) st1
  let st3 := ruleStep kWalKeepSegments keepSegBad ("64".toList) st2
  let st4 := ruleStep kArchiveMode archiveModeBad ("on".toList) st3
  let st5 := ruleStep kArchiveCommand archiveCmdBad ("'/bin/true'".toList) st4
  let st6 := ruleStep kStdConformingStrings scsBad ("'off'".toList) st5
  ruleStep kByteaOutput byteaBad ("'escape'".toList) st6

/-- The required local replication peer-auth rule (line 866). -/
def replicationCfg : List Str :=
  ["local".toList, "replication".toList, "postgres".toList, "peer".toList]

/-- The pg_hba.conf part of `do_system_check` (lines 866-870): append
the replication rule when absent. -/
def hbaReconcile (hba0 : List (List Str)) : List (List Str) × Bool :=
  if replicationCfg ∈ hba0 then (hba0, false) else (hba0 ++ [replicationCfg], true)

/-- Combined result of one `do_system_check` reconciliation pass. -/
structure CheckResult where
  conf : Doc
  hba : List (List Str)
  changed : Bool
  hbaChanged : Bool
deriving DecidableEq, Repr

/-- The pure reconciliation of `do_system_check` (lines 805-870):
the configuration chain and the auth-table rule are independent. -/
def systemCheck (autotuning : Bool) (profile : Doc) (conf0 : Doc)
    (hba0 : List (List Str)) : CheckResult :=
  let c := confReconcile autotuning profile conf0
  let h := hbaReconcile hba0
  ⟨c.1, h.1, c.2, h.2⟩

/-- One full `do_system_check` run at the file level
(lines 805-806, 860-864, 875-894): parse both files, reconcile, and
persist each file exactly when its flag is set (`_write_conf` then
renders them; an unchanged file keeps its previous text).  The restart
(lines 889-892) happens exactly when `changed` or `hbaChanged`. -/
structure CheckFileOut where
  changed : Bool
  hbaChanged : Bool
  confText : Str
  hbaText : Str
deriving DecidableEq, Repr

/-- The payload of one file-level `do_system_check` run once the
configuration parsed: from the two reconciliation results, the two
flags and the resulting file texts (each file is rewritten exactly
when its flag is set). -/
def systemCheckOut (c : Doc × Bool) (h : List (List Str) × Bool)
    (confText hbaText : Str) : CheckFileOut :=
  ⟨c.2, h.2,
   if c.2 then renderConf c.1 else confText,
   if h.2 then renderHba h.1 else hbaText⟩

def systemCheckFile (autotuning : Bool) (profile : Doc)
    (confText hbaText : Str) : Option CheckFileOut :=
  match get_conf confText with
  | .error _ => none
  | .ok conf =>
    some (systemCheckOut (confReconcile autotuning profile conf)
      (hbaReconcile (parseHba hbaText)) confText hbaText)

/-! ## Restore Engine (`do_backup_restore`, lines 605-642) -/

/-- The destructive steps of the restore workflow, in the order the
code runs them (lines 635-642). -/
inductive RestoreAction where
  | shutdownDb
  | saveCurrentCluster
  | replaceNewBackup
  | dbStart
deriving DecidableEq, Repr

/-- The inputs `do_backup_restore` obtains from its collaborators:
`do_backup_status('--silent')` (line 612), the two `du` calls
(lines 618-619) and the `df` call (line 620), in bytes. -/
structure RestoreEnv where
  backupDst : Str
  backupOn : Bool
  currTsSize : Int
  bckpTsSize : Int
  diskSize : Int
deriving DecidableEq, Repr

/-- One GiB, the literal `0x40000000` of line 628. -/
def oneGiB : Int := 0x40000000

/-- `do_backup_restore` (lines 605-642).  Aborts when no backup is
configured (613-615); aborts when
`disk_size - curr_ts_size - bckp_ts_size < 0x40000000` (628-630) —
note the compression ratio of line 610 enters only the printed
"Predicted space" diagnostic of line 625, not this check.  Otherwise
the four destructive steps run in order. -/
def do_backup_restore (env : RestoreEnv) : Except Str (List RestoreAction) :=
  if env.backupOn = false then
    .error ("No backup snapshots are available.".toList)
  else if env.diskSize - env.currTsSize - env.bckpTsSize < oneGiB then
    .error ("At least 1GB free disk space required after backup restoration.".toList)
  else
    .ok [.shutdownDb, .saveCurrentCluster, .replaceNewBackup, .dbStart]

/-- Modelled from the spec (section 4.5 step 2 and section 8): the
precondition as the specification words it,
`available − current_size × 0.134 − backup_size ≥ 1 GiB`, with the
ratio 0.134 as the exact rational 134/1000 (stated over integers
scaled by 1000). -/
def specRestorePreconditionOk (disk curr bckp : Int) : Prop :=
  1000 * disk - 134 * curr - 1000 * bckp ≥ 1000 * oneGiB

/-! ## Archival Controller (`_perform_enable_backups`, lines 670-720) -/

/-- The archive command value the enable branch requires (line 692):
`"'" + '/usr/bin/smdba-pgarchive --source "%p" --destination "' + backup_dir + '/%f"' + "'"`,
written with its leading and trailing quote character explicit. -/
def cmdOnMid : Str :=
  "/usr/bin/smdba-pgarchive --source \"%p\" --destination \"".toList

def cmdOnHead : Str := '\'' :: cmdOnMid

def cmdOnTail : Str := "/%f\"".toList ++ ['\'']

def cmdOn (backupDir : Str) : Str := cmdOnHead ++ backupDir ++ cmdOnTail

/-- The no-op sentinel of the disable branch (line 716). -/
def cmdOff : Str := "'/bin/true'".toList

/-- Outcome of the archive-command portion of one
`_perform_enable_backups` call. -/
structure ArchOutcome where
  conf : Doc
  restarted : Bool
deriving DecidableEq, Repr

/-- The archive-command handling of `_perform_enable_backups`
(lines 692-696 for `enable == 'on'`, lines 716-720 otherwise): the
configuration is rewritten and `_restart_db` (lines 723-730, a stop
when running followed by a start) is invoked exactly when the current
`archive_command` differs from the required value. -/
def perform_enable_backups_cmd (enableOn : Bool) (backupDir : Str)
    (conf : Doc) : ArchOutcome :=
  if enableOn then
    let cmd := cmdOn backupDir
    if (dget conf kArchiveCommand).getD [] ≠ cmd then
      ⟨dset conf kArchiveCommand cmd, true⟩
    else ⟨conf, false⟩
  else
    if (dget conf kArchiveCommand).getD [] ≠ cmdOff then
      ⟨dset conf kArchiveCommand cmdOff, true⟩
    else ⟨conf, false⟩

/-- One `_perform_enable_backups` call at the file level: the
configuration is read fresh (line 676), and written back via
`_write_conf` exactly when the command changed (line 695 / 719). -/
def enableStepFile (enableOn : Bool) (backupDir : Str)
    (confText : Str) : Option (Str × Bool) :=
  match get_conf confText with
  | .error _ => none
  | .ok conf =>
    let r := perform_enable_backups_cmd enableOn backupDir conf
    some (if r.restarted then renderConf r.conf else confText, r.restarted)

/-! ## Lemmas about the string primitives -/

theorem lstrip_cons (c : Char) (t : Str) :
    lstrip (c :: t) = if isSpaceChar c then lstrip t else c :: t := by
  simp [lstrip, List.dropWhile_cons]

theorem lstrip_cons_of_space {c : Char} (h : isSpaceChar c = true) (t : Str) :
    lstrip (c :: t) = lstrip t := by
  simp [lstrip_cons, h]

theorem lstrip_cons_of_not_space {c : Char} (h : isSpaceChar c = false) (t : Str) :
    lstrip (c :: t) = c :: t := by
  simp [lstrip_cons, h]

theorem length_lstrip_le (s : Str) : (lstrip s).length ≤ s.length :=
  s.dropWhile_sublist isSpaceChar |>.length_le

theorem lstrip_head_not_space : ∀ {s c t}, lstrip s = c :: t → isSpaceChar c = false := by
  intro s
  induction s with
  | nil => intro c t h; simp [lstrip] at h
  | cons a s' ih =>
    intro c t h
    by_cases ha : isSpaceChar a
    · rw [lstrip_cons_of_space ha] at h; exact ih h
    · rw [lstrip_cons_of_not_space (by simpa using ha)] at h
      cases h; simpa using ha

theorem mem_lstrip {c : Char} {s : Str} (h : c ∈ lstrip s) : c ∈ s :=
  (s.dropWhile_sublist isSpaceChar).mem h

theorem rstrip_cons (c : Char) (t : Str) :
    rstrip (c :: t) =
      match rstrip t with
      | [] => if isSpaceChar c then [] else [c]
      | r => c :: r := rfl

theorem rstrip_concat_of_space {c : Char} (h : isSpaceChar c = true) :
    ∀ t : Str, rstrip (t ++ [c]) = rstrip t := by
  intro t
  induction t with
  | nil => simp [rstrip, h]
  | cons a t' ih =>
    show rstrip (a :: (t' ++ [c])) = _
    rw [rstrip_cons, ih, rstrip_cons]

theorem rstrip_concat_of_not_space {c : Char} (h : isSpaceChar c = false) :
    ∀ t : Str, rstrip (t ++ [c]) = t ++ [c] := by
  intro t
  induction t with
  | nil => simp [rstrip, h]
  | cons a t' ih =>
    show rstrip (a :: (t' ++ [c])) = _
    rw [rstrip_cons, ih]
    cases t' <;> simp

theorem length_rstrip_le (s : Str) : (rstrip s).length ≤ s.length := by
  induction s with
  | nil => simp [rstrip]
  | cons a t ih =>
    rw [rstrip_cons]
    cases h : rstrip t with
    | nil =>
      by_cases ha : isSpaceChar a <;> simp [ha]
    | cons r rs =>
      show (a :: r :: rs).length ≤ (a :: t).length
      rw [h] at ih
      simpa using ih

theorem head?_rstrip (s : Str) : rstrip s = [] ∨ (rstrip s).head? = s.head? := by
  cases s with
  | nil => left; rfl
  | cons a t =>
    rw [rstrip_cons]
    cases h : rstrip t with
    | nil =>
      by_cases ha : isSpaceChar a <;> simp [ha]
    | cons r rs => right; rfl

theorem mem_rstrip {c : Char} : ∀ {s : Str}, c ∈ rstrip s → c ∈ s := by
  intro s
  induction s with
  | nil => simp [rstrip]
  | cons a t ih =>
    intro h
    rw [rstrip_cons] at h
    cases ht : rstrip t with
    | nil =>
      rw [ht] at h
      by_cases ha : isSpaceChar a <;> simp [ha] at h
      simp [h]
    | cons r rs =>
      rw [ht] at h
      change c ∈ a :: r :: rs at h
      rcases List.mem_cons.mp h with h | h
      · simp [h]
      · exact List.mem_cons_of_mem _ (ih (ht ▸ h))

theorem rstrip_idem : ∀ s : Str, rstrip (rstrip s) = rstrip s := by
  intro s
  induction s with
  | nil => rfl
  | cons a t ih =>
    rw [rstrip_cons]
    cases ht : rstrip t with
    | nil =>
      by_cases ha : isSpaceChar a <;> simp [ha, rstrip]
    | cons r rs =>
      show rstrip (a :: r :: rs) = a :: r :: rs
      rw [rstrip_cons, ← ht, ih, ht]

theorem mem_strip {c : Char} {s : Str} (h : c ∈ strip s) : c ∈ s :=
  mem_lstrip (mem_rstrip h)

theorem strip_idem (s : Str) : strip (strip s) = strip s := by
  unfold strip
  cases h : rstrip (lstrip s) with
  | nil => rfl
  | cons c t =>
    have hc : isSpaceChar c = false := by
      rcases head?_rstrip (lstrip s) with h0 | h0
      · rw [h0] at h; cases h
      · rw [h] at h0
        cases hl : lstrip s with
        | nil => rw [hl] at h0; cases h0
        | cons a u =>
          rw [hl] at h0
          have : c = a := by simpa using h0
          subst this
          exact lstrip_head_not_space hl
    rw [lstrip_cons_of_not_space hc, ← h, rstrip_idem, h]

theorem strip_fix_lstrip {s : Str} (h : strip s = s) : lstrip s = s := by
  have h1 : (strip s).length = s.length := by rw [h]
  have h2 : (rstrip (lstrip s)).length ≤ (lstrip s).length := length_rstrip_le _
  have h3 : (lstrip s).length ≤ s.length := length_lstrip_le s
  have h4 : (lstrip s).length = s.length := by
    have : (strip s).length ≤ (lstrip s).length := h2
    omega
  exact (s.dropWhile_sublist isSpaceChar).eq_of_length h4

theorem strip_fix_rstrip {s : Str} (h : strip s = s) : rstrip s = s := by
  have h1 := strip_fix_lstrip h
  unfold strip at h
  rw [h1] at h
  exact h

theorem strip_fix_head {s : Str} {c : Char} {t : Str} (h : strip s = s)
    (he : s = c :: t) : isSpaceChar c = false := by
  have h1 := strip_fix_lstrip h
  exact lstrip_head_not_space (by rw [h1, he])

theorem strip_fix_last {s : Str} {c : Char} {t : Str} (h : strip s = s)
    (he : s = t ++ [c]) : isSpaceChar c = false := by
  by_contra hc
  have hc' : isSpaceChar c = true := by simpa using hc
  have h2 := strip_fix_rstrip h
  rw [he, rstrip_concat_of_space hc'] at h2
  have := length_rstrip_le t
  have hlen := congrArg List.length h2
  simp at hlen
  omega

theorem strip_eq_self_of_ends {s : Str}
    (hh : ∀ c t, s = c :: t → isSpaceChar c = false)
    (hl : ∀ c t, s = t ++ [c] → isSpaceChar c = false) : strip s = s := by
  cases s with
  | nil => rfl
  | cons a u =>
    have ha : isSpaceChar a = false := hh a u rfl
    unfold strip
    rw [lstrip_cons_of_not_space ha]
    rcases List.eq_nil_or_concat' (a :: u) with h | ⟨L, b, h⟩
    · cases h
    · rw [h]
      exact rstrip_concat_of_not_space (hl b L h) L

/-! ## Lemmas about splitting and joining -/

theorem splitOnChar_nil (sep : Char) : splitOnChar sep [] = [[]] := rfl

theorem splitOnChar_cons_sep {c : Char} {sep : Char} (h : c = sep) (cs : Str) :
    splitOnChar sep (c :: cs) = [] :: splitOnChar sep cs := by
  simp [splitOnChar, h]

theorem splitOnChar_ne_nil (sep : Char) (s : Str) : splitOnChar sep s ≠ [] := by
  cases s with
  | nil => simp [splitOnChar]
  | cons c cs =>
    unfold splitOnChar
    split
    · simp
    · cases h : splitOnChar sep cs <;> simp

theorem splitOnChar_cons_ne {c : Char} {sep : Char} (h : c ≠ sep) (cs : Str) :
    ∃ hd tl, splitOnChar sep cs = hd :: tl ∧
      splitOnChar sep (c :: cs) = (c :: hd) :: tl := by
  cases hs : splitOnChar sep cs with
  | nil => exact absurd hs (splitOnChar_ne_nil sep cs)
  | cons hd tl =>
    refine ⟨hd, tl, rfl, ?_⟩
    unfold splitOnChar
    rw [if_neg h, hs]

theorem splitOnChar_append_sep {sep : Char} :
    ∀ {l : Str}, sep ∉ l → ∀ r : Str,
      splitOnChar sep (l ++ sep :: r) = l :: splitOnChar sep r := by
  intro l
  induction l with
  | nil =>
    intro _ r
    simpa using splitOnChar_cons_sep rfl r
  | cons c l' ih =>
    intro h r
    have hc : c ≠ sep := fun hc => h (by simp [hc])
    have h' : sep ∉ l' := fun hm => h (List.mem_cons_of_mem _ hm)
    obtain ⟨hd, tl, h1, h2⟩ := splitOnChar_cons_ne hc (l' ++ sep :: r)
    rw [ih h' r] at h1
    cases h1
    simpa using h2

theorem splitOnChar_of_not_mem {sep : Char} :
    ∀ {l : Str}, sep ∉ l → splitOnChar sep l = [l] := by
  intro l
  induction l with
  | nil => intro _; rfl
  | cons c l' ih =>
    intro h
    have hc : c ≠ sep := fun hc => h (by simp [hc])
    have h' : sep ∉ l' := fun hm => h (List.mem_cons_of_mem _ hm)
    obtain ⟨hd, tl, h1, h2⟩ := splitOnChar_cons_ne hc l'
    rw [ih h'] at h1
    cases h1
    simpa using h2

theorem not_mem_of_mem_splitOnChar {sep : Char} :
    ∀ {s l : Str}, l ∈ splitOnChar sep s → sep ∉ l := by
  intro s
  induction s with
  | nil => intro l h; simp [splitOnChar] at h; simp [h]
  | cons c cs ih =>
    intro l h
    by_cases hc : c = sep
    · rw [splitOnChar_cons_sep hc] at h
      rcases List.mem_cons.mp h with h | h
      · simp [h]
      · exact ih h
    · obtain ⟨hd, tl, h1, h2⟩ := splitOnChar_cons_ne hc cs
      rw [h2] at h
      rcases List.mem_cons.mp h with h | h
      · subst h
        intro hmem
        rcases List.mem_cons.mp hmem with h | h
        · exact hc h.symm
        · exact ih (h1 ▸ List.mem_cons_self hd tl) h
      · exact ih (h1 ▸ List.mem_cons_of_mem hd h)

theorem mem_of_mem_splitOnChar {sep c : Char} :
    ∀ {s l : Str}, l ∈ splitOnChar sep s → c ∈ l → c ∈ s := by
  intro s
  induction s with
  | nil =>
    intro l h hc
    simp [splitOnChar] at h
    subst h
    cases hc
  | cons a cs ih =>
    intro l h hc
    by_cases ha : a = sep
    · rw [splitOnChar_cons_sep ha] at h
      rcases List.mem_cons.mp h with h | h
      · subst h; cases hc
      · exact List.mem_cons_of_mem _ (ih h hc)
    · obtain ⟨hd, tl, h1, h2⟩ := splitOnChar_cons_ne ha cs
      rw [h2] at h
      rcases List.mem_cons.mp h with h | h
      · subst h
        rcases List.mem_cons.mp hc with h | h
        · simp [h]
        · exact List.mem_cons_of_mem _ (ih (h1 ▸ List.mem_cons_self hd tl) h)
      · exact List.mem_cons_of_mem _ (ih (h1 ▸ List.mem_cons_of_mem hd h) hc)

theorem joinSep_cons (sep : Char) (t : Str) (ts : List Str) (h : ts ≠ []) :
    joinSep sep (t :: ts) = t ++ sep :: joinSep sep ts := by
  cases ts with
  | nil => exact absurd rfl h
  | cons u us => rfl

theorem joinSep_splitOnChar (sep : Char) : ∀ s : Str,
    joinSep sep (splitOnChar sep s) = s := by
  intro s
  induction s with
  | nil => rfl
  | cons c cs ih =>
    by_cases hc : c = sep
    · rw [splitOnChar_cons_sep hc,
        joinSep_cons sep [] _ (splitOnChar_ne_nil sep cs), ih, hc]
      rfl
    · obtain ⟨hd, tl, h1, h2⟩ := splitOnChar_cons_ne hc cs
      rw [h2]
      cases tl with
      | nil =>
        show c :: hd = c :: cs
        rw [h1] at ih
        simpa [joinSep] using ih
      | cons u us =>
        rw [joinSep_cons sep _ _ (by simp),
          show (c :: hd) ++ sep :: joinSep sep (u :: us)
            = c :: (hd ++ sep :: joinSep sep (u :: us)) from rfl,
          ← joinSep_cons sep hd (u :: us) (by simp), ← h1, ih]

theorem joinSep_concat (sep : Char) (xs : List Str) (y : Str) :
    joinSep sep (xs ++ [y]) = if xs = [] then y else joinSep sep xs ++ sep :: y := by
  induction xs with
  | nil => rfl
  | cons x xs' ih =>
    rw [if_neg (by simp)]
    cases xs' with
    | nil => rfl
    | cons u us =>
      rw [show (x :: u :: us) ++ [y] = x :: ((u :: us) ++ [y]) from rfl,
        joinSep_cons sep x _ (by simp), ih, if_neg (by simp),
        joinSep_cons sep x (u :: us) (by simp)]
      simp

theorem takeWhile_eq_self {p : Char → Bool} :
    ∀ {l : Str}, (∀ c ∈ l, p c = true) → l.takeWhile p = l := by
  intro l
  induction l with
  | nil => intro _; rfl
  | cons c l' ih =>
    intro h
    rw [List.takeWhile_cons, h c (by simp)]
    simp [ih (fun x hx => h x (List.mem_cons_of_mem _ hx))]

theorem of_mem_takeWhile {p : Char → Bool} :
    ∀ {l : Str} {c : Char}, c ∈ l.takeWhile p → c ∈ l ∧ p c = true := by
  intro l
  induction l with
  | nil => intro c h; cases h
  | cons a l' ih =>
    intro c h
    rw [List.takeWhile_cons] at h
    by_cases ha : p a
    · rw [if_pos ha] at h
      rcases List.mem_cons.mp h with h | h
      · subst h; exact ⟨by simp, ha⟩
      · obtain ⟨h1, h2⟩ := ih h
        exact ⟨List.mem_cons_of_mem _ h1, h2⟩
    · rw [if_neg ha] at h
      cases h

/-! ## Lemmas about the dictionary operations -/

theorem dget_dset_self (d : Doc) (k v : Str) : dget (dset d k v) k = some v := by
  induction d with
  | nil => simp [dget, dset]
  | cons p t ih =>
    obtain ⟨k', v'⟩ := p
    by_cases h : k' = k
    · simp [dset, dget, h]
    · simp [dset, dget, h, ih]

theorem dget_dset_ne (d : Doc) {k k' : Str} (v : Str) (h : k ≠ k') :
    dget (dset d k v) k' = dget d k' := by
  induction d with
  | nil => simp [dget, dset, h]
  | cons p t ih =>
    obtain ⟨k0, v0⟩ := p
    by_cases h0 : k0 = k
    · subst h0
      simp [dset, dget, h]
    · simp [dset, dget, h0, ih]

theorem dset_of_dget_none {d : Doc} {k : Str} (h : dget d k = none) (v : Str) :
    dset d k v = d ++ [(k, v)] := by
  induction d with
  | nil => rfl
  | cons p t ih =>
    obtain ⟨k0, v0⟩ := p
    by_cases h0 : k0 = k
    · simp [dget, h0] at h
    · simp only [dget, if_neg h0] at h
      simp [dset, h0, ih h]

theorem keys_dset (d : Doc) (k v : Str) :
    (dset d k v).map Prod.fst = if dget d k = none
      then d.map Prod.fst ++ [k] else d.map Prod.fst := by
  induction d with
  | nil => simp [dset, dget]
  | cons p t ih =>
    obtain ⟨k0, v0⟩ := p
    by_cases h0 : k0 = k
    · simp [dset, dget, h0]
    · simp only [dset, if_neg h0, dget, List.map_cons]
      rw [ih]
      split <;> simp

theorem dget_of_mem_keys {d : Doc} {k : Str}
    (h : k ∈ d.map Prod.fst) : dget d k ≠ none := by
  induction d with
  | nil => cases h
  | cons p t ih =>
    obtain ⟨k0, v0⟩ := p
    by_cases h0 : k0 = k
    · simp [dget, h0]
    · simp only [dget, if_neg h0]
      simp at h
      rcases h with h | h
      · exact absurd h.symm h0
      · exact ih (by simpa using h)

theorem nodup_keys_dset {d : Doc} (h : (d.map Prod.fst).Nodup) (k v : Str) :
    ((dset d k v).map Prod.fst).Nodup := by
  rw [keys_dset]
  split
  · rename_i hnone
    rw [List.nodup_append]
    refine ⟨h, List.nodup_singleton k, ?_⟩
    intro a ha hb
    simp at hb
    subst hb
    exact dget_of_mem_keys ha hnone
  · exact h

theorem splitFirst_append_sep {sep : Char} :
    ∀ {a : Str}, sep ∉ a → ∀ b : Str, splitFirst sep (a ++ sep :: b) = some (a, b) := by
  intro a
  induction a with
  | nil => intro _ b; simp [splitFirst]
  | cons c a' ih =>
    intro h b
    have hc : c ≠ sep := fun hc => h (by simp [hc])
    have h' : sep ∉ a' := fun hm => h (List.mem_cons_of_mem _ hm)
    show splitFirst sep (c :: (a' ++ sep :: b)) = _
    unfold splitFirst
    rw [if_neg hc, ih h' b]
    rfl

theorem splitFirst_eq_some {sep : Char} :
    ∀ {l a b : Str}, splitFirst sep l = some (a, b) → l = a ++ sep :: b ∧ sep ∉ a := by
  intro l
  induction l with
  | nil => intro a b h; cases h
  | cons c l' ih =>
    intro a b h
    unfold splitFirst at h
    by_cases hc : c = sep
    · rw [if_pos hc] at h
      obtain ⟨h1, h2⟩ := Prod.mk.injEq .. ▸ Option.some.injEq .. ▸ h
      injection h with h
      injection h with h1 h2
      subst h1; subst h2; subst hc
      simp
    · rw [if_neg hc] at h
      cases hs : splitFirst sep l' with
      | none => rw [hs] at h; cases h
      | some p =>
        rw [hs] at h
        obtain ⟨a', b'⟩ := p
        injection h with h
        injection h with h1 h2
        obtain ⟨hl, hm⟩ := ih hs
        subst h2
        rw [← h1, hl]
        constructor
        · rfl
        · intro hmem
          rcases List.mem_cons.mp hmem with h | h
          · exact hc h.symm
          · exact hm h

/-! ## Hygiene predicates and the write/read round trip -/

/-- A key as produced by the reader: no surrounding whitespace, and no
comment, separator or newline character. -/
abbrev CleanKey (k : Str) : Prop :=
  strip k = k ∧ ∀ c ∈ k, c ≠ '#' ∧ c ≠ '=' ∧ c ≠ '\n'

/-- A value as produced by the reader: no surrounding whitespace, and
no comment or newline character (the separator `=` may occur). -/
abbrev CleanVal (v : Str) : Prop :=
  strip v = v ∧ ∀ c ∈ v, c ≠ '#' ∧ c ≠ '\n'

/-- A document as produced by the reader: unique keys, clean entries. -/
abbrev CleanDoc (d : Doc) : Prop :=
  (d.map Prod.fst).Nodup ∧ ∀ p ∈ d, CleanKey p.1 ∧ CleanVal p.2

/-- The line `_write_conf` renders for one item, without its newline. -/
def confLine (p : Str × Str) : Str := p.1 ++ ' ' :: '=' :: ' ' :: p.2

theorem renderConfLine_eq (p : Str × Str) :
    renderConfLine p = confLine p ++ ['\n'] := by
  simp [renderConfLine, confLine]

theorem strip_confLine_nil_cons {v : Str} (hv : CleanVal v) (hne : v ≠ []) :
    strip (confLine ([], v)) = '=' :: ' ' :: v := by
  show strip (' ' :: '=' :: ' ' :: v) = '=' :: ' ' :: v
  rcases List.eq_nil_or_concat' v with h | ⟨L, d, h⟩
  · exact absurd h hne
  · have hd : isSpaceChar d = false := strip_fix_last hv.1 h
    unfold strip
    rw [lstrip_cons_of_space (by decide), lstrip_cons_of_not_space (by decide), h,
      show ('=' :: ' ' :: (L ++ [d])) = ('=' :: ' ' :: L) ++ [d] by simp,
      rstrip_concat_of_not_space hd]

theorem strip_confLine_cons_nil {kh : Char} {kt : Str} (hk : CleanKey (kh :: kt)) :
    strip (confLine (kh :: kt, [])) = (kh :: kt) ++ [' ', '='] := by
  have hkh : isSpaceChar kh = false := strip_fix_head hk.1 rfl
  show strip ((kh :: kt) ++ [' ', '=', ' ']) = (kh :: kt) ++ [' ', '=']
  unfold strip
  rw [show (kh :: kt) ++ [' ', '=', ' '] = kh :: (kt ++ [' ', '=', ' ']) by simp,
    lstrip_cons_of_not_space hkh,
    show kh :: (kt ++ [' ', '=', ' ']) = (kh :: (kt ++ [' ', '='])) ++ [' '] by simp,
    rstrip_concat_of_space (by decide),
    show kh :: (kt ++ [' ', '=']) = (kh :: (kt ++ [' '])) ++ ['='] by simp,
    rstrip_concat_of_not_space (by decide)]
  simp

theorem strip_confLine_cons_cons {kh : Char} {kt v : Str} (hk : CleanKey (kh :: kt))
    (hv : CleanVal v) (hne : v ≠ []) :
    strip (confLine (kh :: kt, v)) = (kh :: kt) ++ ' ' :: '=' :: ' ' :: v := by
  have hkh : isSpaceChar kh = false := strip_fix_head hk.1 rfl
  show strip ((kh :: kt) ++ ' ' :: '=' :: ' ' :: v) = (kh :: kt) ++ ' ' :: '=' :: ' ' :: v
  rcases List.eq_nil_or_concat' v with h | ⟨L, d, h⟩
  · exact absurd h hne
  · have hd : isSpaceChar d = false := strip_fix_last hv.1 h
    unfold strip
    rw [show (kh :: kt) ++ ' ' :: '=' :: ' ' :: v = kh :: (kt ++ ' ' :: '=' :: ' ' :: v) by simp,
      lstrip_cons_of_not_space hkh, h,
      show kh :: (kt ++ ' ' :: '=' :: ' ' :: (L ++ [d]))
        = (kh :: (kt ++ ' ' :: '=' :: ' ' :: L)) ++ [d] by simp,
      rstrip_concat_of_not_space hd]

theorem strip_concat_space {k : Str} (hk : CleanKey k) : strip (k ++ [' ']) = k := by
  cases k with
  | nil => decide
  | cons kh kt =>
    have hkh : isSpaceChar kh = false := strip_fix_head hk.1 rfl
    unfold strip
    rw [show (kh :: kt) ++ [' '] = kh :: (kt ++ [' ']) by simp,
      lstrip_cons_of_not_space hkh,
      show kh :: (kt ++ [' ']) = (kh :: kt) ++ [' '] by simp,
      rstrip_concat_of_space (by decide)]
    exact strip_fix_rstrip hk.1

theorem strip_cons_space {v : Str} (hv : CleanVal v) : strip (' ' :: v) = v := by
  unfold strip
  rw [lstrip_cons_of_space (by decide)]
  exact hv.1

/-- Parsing the line rendered for a clean key-value pair stores exactly
that pair. -/
theorem parseConfLine_render {k v : Str} (hk : CleanKey k) (hv : CleanVal v)
    (conf : Doc) :
    parseConfLine (confLine (k, v)) conf = .ok (dset conf k v) := by
  have hnohash : ∀ c ∈ strip (confLine (k, v)), (fun c => decide (c ≠ '#')) c = true := by
    intro c hc
    have hc' : c ∈ confLine (k, v) := mem_strip hc
    simp only [confLine] at hc'
    rcases List.mem_append.mp hc' with h | h
    · simpa using (hk.2 c h).1
    · rcases List.mem_cons.mp h with h | h
      · simp [h]
      · rcases List.mem_cons.mp h with h | h
        · simp [h]
        · rcases List.mem_cons.mp h with h | h
          · simp [h]
          · simpa using (hv.2 c h).1
  simp only [parseConfLine]
  rw [takeWhile_eq_self hnohash, strip_idem]
  cases k with
  | nil =>
    cases v with
    | nil =>
      rfl
    | cons vh vt =>
      have hL := strip_confLine_nil_cons hv (by simp)
      have h1 : splitFirst '=' ('=' :: ' ' :: vh :: vt) = some ([], ' ' :: vh :: vt) := by
        simp [splitFirst]
      rw [hL, if_neg (by simp), if_neg (by simp), h1]
      show Except.ok (dset conf (strip []) (strip (' ' :: vh :: vt))) = _
      rw [strip_cons_space hv]
      rfl
  | cons kh kt =>
    have hkh : kh ≠ '#' := (hk.2 kh (by simp)).1
    have hknoeq : '=' ∉ (kh :: kt) ++ [' '] := by
      intro hm
      rcases List.mem_append.mp hm with h | h
      · exact ((hk.2 _ h).2.1) rfl
      · simp at h
    cases v with
    | nil =>
      have hL := strip_confLine_cons_nil hk
      have h1 : splitFirst '=' ((kh :: kt) ++ [' ', '=']) = some ((kh :: kt) ++ [' '], []) := by
        rw [show (kh :: kt) ++ [' ', '='] = ((kh :: kt) ++ [' ']) ++ '=' :: [] by simp]
        exact splitFirst_append_sep hknoeq []
      rw [hL, if_neg (by simp), if_neg (by simpa using hkh), h1]
      show Except.ok (dset conf (strip ((kh :: kt) ++ [' '])) (strip [])) = _
      rw [strip_concat_space hk]
      rfl
    | cons vh vt =>
      have hL := strip_confLine_cons_cons hk hv (by simp)
      have h1 : splitFirst '=' ((kh :: kt) ++ ' ' :: '=' :: ' ' :: vh :: vt)
          = some ((kh :: kt) ++ [' '], ' ' :: vh :: vt) := by
        rw [show (kh :: kt) ++ ' ' :: '=' :: ' ' :: vh :: vt
          = ((kh :: kt) ++ [' ']) ++ '=' :: (' ' :: vh :: vt) by simp]
        exact splitFirst_append_sep hknoeq _
      rw [hL, if_neg (by simp), if_neg (by simpa using hkh), h1]
      show Except.ok (dset conf (strip ((kh :: kt) ++ [' '])) (strip (' ' :: vh :: vt))) = _
      rw [strip_concat_space hk, strip_cons_space hv]

theorem newline_not_mem_confLine {p : Str × Str} (hk : CleanKey p.1)
    (hv : CleanVal p.2) : '\n' ∉ confLine p := by
  intro h
  simp only [confLine] at h
  rcases List.mem_append.mp h with h | h
  · exact (hk.2 _ h).2.2 rfl
  · rcases List.mem_cons.mp h with h | h
    · cases h
    · rcases List.mem_cons.mp h with h | h
      · cases h
      · rcases List.mem_cons.mp h with h | h
        · cases h
        · exact (hv.2 _ h).2 rfl

theorem splitOnChar_renderConf :
    ∀ {d : Doc}, (∀ p ∈ d, CleanKey p.1 ∧ CleanVal p.2) →
      splitOnChar '\n' (renderConf d) = d.map confLine ++ [[]] := by
  intro d
  induction d with
  | nil => intro _; rfl
  | cons p t ih =>
    intro h
    obtain ⟨hk, hv⟩ := h p (by simp)
    have hr : renderConf (p :: t) = confLine p ++ '\n' :: renderConf t := by
      simp [renderConf, renderConfLine_eq]
    rw [hr, splitOnChar_append_sep (newline_not_mem_confLine hk hv),
      ih (fun q hq => h q (List.mem_cons_of_mem _ hq))]
    simp

theorem parseConfLines_render :
    ∀ {d : Doc}, (∀ p ∈ d, CleanKey p.1 ∧ CleanVal p.2) → ∀ acc : Doc,
      parseConfLines (d.map confLine ++ [[]]) acc =
        .ok (d.foldl (fun a p => dset a p.1 p.2) acc) := by
  intro d
  induction d with
  | nil => intro _ acc; rfl
  | cons p t ih =>
    intro h acc
    obtain ⟨hk, hv⟩ := h p (by simp)
    show parseConfLines (confLine p :: (t.map confLine ++ [[]])) acc = _
    unfold parseConfLines
    rw [show confLine p = confLine (p.1, p.2) from rfl, parseConfLine_render hk hv]
    exact ih (fun q hq => h q (List.mem_cons_of_mem _ hq)) (dset acc p.1 p.2)

theorem foldl_dset_fresh :
    ∀ {d : Doc}, ((d.map Prod.fst).Nodup) → ∀ acc : Doc,
      (∀ p ∈ d, dget acc p.1 = none) →
      d.foldl (fun a p => dset a p.1 p.2) acc = acc ++ d := by
  intro d
  induction d with
  | nil => intro _ acc _; simp
  | cons p t ih =>
    intro hnd acc hfresh
    obtain ⟨k, v⟩ := p
    show t.foldl (fun a p => dset a p.1 p.2) (dset acc k v) = acc ++ (k, v) :: t
    rw [dset_of_dget_none (hfresh (k, v) (by simp)) v]
    rw [ih (List.Nodup.of_cons hnd) (acc ++ [(k, v)]) ?_]
    · simp
    · intro q hq
      have hne : q.1 ≠ k := by
        intro he
        have : k ∈ t.map Prod.fst := he ▸ List.mem_map_of_mem Prod.fst hq
        exact (List.nodup_cons.mp (by simpa using hnd)).1 this
      have h1 : dget (acc ++ [(k, v)]) q.1 = dget (dset acc k v) q.1 := by
        rw [dset_of_dget_none (hfresh (k, v) (by simp)) v]
      rw [h1, dget_dset_ne acc v (fun he => hne he.symm)]
      exact hfresh q (List.mem_cons_of_mem _ hq)

/-- The round trip of the Config Store Adapter: writing a clean
document with `_write_conf` and reading the file back with `_get_conf`
yields exactly the document written. -/
theorem get_conf_renderConf {d : Doc} (h : CleanDoc d) :
    get_conf (renderConf d) = .ok d := by
  unfold get_conf
  rw [splitOnChar_renderConf h.2, parseConfLines_render h.2 [],
    foldl_dset_fresh h.1 [] (fun p _ => rfl)]
  rfl

/-! ## Every document `_get_conf` produces is clean -/

theorem cleanKey_of_parse {l a : Str} {rest : Str}
    (hnl : '\n' ∉ l)
    (hsp : splitFirst '=' (strip ((strip l).takeWhile (fun c => decide (c ≠ '#'))))
      = some (a, rest)) : CleanKey (strip a) := by
  obtain ⟨hl, hnmem⟩ := splitFirst_eq_some hsp
  refine ⟨strip_idem a, ?_⟩
  intro c hc
  have hca : c ∈ a := mem_strip hc
  have hmem1 : c ∈ strip ((strip l).takeWhile (fun c => decide (c ≠ '#'))) := by
    rw [hl]
    exact List.mem_append.mpr (Or.inl hca)
  have hmem2 : c ∈ (strip l).takeWhile (fun c => decide (c ≠ '#')) :=
    mem_strip hmem1
  obtain ⟨hmem3, hp⟩ := of_mem_takeWhile hmem2
  refine ⟨by simpa using hp, fun he => hnmem (he ▸ hca), ?_⟩
  intro he
  exact hnl (he ▸ mem_strip hmem3)

theorem cleanVal_of_parse {l a : Str} {rest : Str}
    (hnl : '\n' ∉ l)
    (hsp : splitFirst '=' (strip ((strip l).takeWhile (fun c => decide (c ≠ '#'))))
      = some (a, rest)) : CleanVal (strip rest) := by
  obtain ⟨hl, _⟩ := splitFirst_eq_some hsp
  refine ⟨strip_idem rest, ?_⟩
  intro c hc
  have hca : c ∈ rest := mem_strip hc
  have hmem1 : c ∈ strip ((strip l).takeWhile (fun c => decide (c ≠ '#'))) := by
    rw [hl]
    exact List.mem_append.mpr (Or.inr (List.mem_cons_of_mem _ hca))
  have hmem2 : c ∈ (strip l).takeWhile (fun c => decide (c ≠ '#')) :=
    mem_strip hmem1
  obtain ⟨hmem3, hp⟩ := of_mem_takeWhile hmem2
  refine ⟨by simpa using hp, ?_⟩
  intro he
  exact hnl (he ▸ mem_strip hmem3)

theorem mem_dset : ∀ {d : Doc} {p : Str × Str} {k v : Str},
    p ∈ dset d k v → p = (k, v) ∨ p ∈ d := by
  intro d
  induction d with
  | nil =>
    intro p k v hp
    simp [dset] at hp
    exact Or.inl hp
  | cons q t ih =>
    intro p k v hp
    obtain ⟨k0, v0⟩ := q
    by_cases h0 : k0 = k
    · simp only [dset, if_pos h0] at hp
      rcases List.mem_cons.mp hp with h | h
      · exact Or.inl h
      · exact Or.inr (List.mem_cons_of_mem _ h)
    · simp only [dset, if_neg h0] at hp
      rcases List.mem_cons.mp hp with h | h
      · exact Or.inr (h ▸ by simp)
      · rcases ih h with h | h
        · exact Or.inl h
        · exact Or.inr (List.mem_cons_of_mem _ h)

theorem cleanDoc_dset {d : Doc} (hd : CleanDoc d) {k v : Str}
    (hk : CleanKey k) (hv : CleanVal v) : CleanDoc (dset d k v) := by
  refine ⟨nodup_keys_dset hd.1 k v, ?_⟩
  intro p hp
  rcases mem_dset hp with h | h
  · exact h ▸ ⟨hk, hv⟩
  · exact hd.2 p h

theorem parseConfLine_clean {l : Str} {conf conf' : Doc}
    (hc : CleanDoc conf) (hnl : '\n' ∉ l)
    (h : parseConfLine l conf = .ok conf') : CleanDoc conf' := by
  unfold parseConfLine at h
  by_cases h1 : strip l = []
  · rw [if_pos h1] at h
    injection h with h
    exact h ▸ hc
  · rw [if_neg h1] at h
    by_cases h2 : (strip l).head? = some '#'
    · rw [if_pos h2] at h
      injection h with h
      exact h ▸ hc
    · rw [if_neg h2] at h
      cases hsp : splitFirst '=' (strip ((strip l).takeWhile (fun c => decide (c ≠ '#')))) with
      | none => rw [hsp] at h; cases h
      | some p =>
        obtain ⟨a, rest⟩ := p
        rw [hsp] at h
        injection h with h
        exact h ▸ cleanDoc_dset hc (cleanKey_of_parse hnl hsp) (cleanVal_of_parse hnl hsp)

theorem parseConfLines_clean :
    ∀ {ls : List Str} {conf conf' : Doc}, CleanDoc conf →
      (∀ l ∈ ls, '\n' ∉ l) →
      parseConfLines ls conf = .ok conf' → CleanDoc conf' := by
  intro ls
  induction ls with
  | nil =>
    intro conf conf' hc _ h
    injection h with h
    exact h ▸ hc
  | cons l rest ih =>
    intro conf conf' hc hnl h
    unfold parseConfLines at h
    cases h1 : parseConfLine l conf with
    | error e => rw [h1] at h; cases h
    | ok c =>
      rw [h1] at h
      exact ih (parseConfLine_clean hc (hnl l (by simp)) h1)
        (fun x hx => hnl x (List.mem_cons_of_mem _ hx)) h

/-- Every document produced by `_get_conf` is clean: stripped unique
keys without `=`, `#` or newline, stripped values without `#` or
newline. -/
theorem get_conf_clean {t : Str} {d : Doc} (h : get_conf t = .ok d) : CleanDoc d := by
  unfold get_conf at h
  refine parseConfLines_clean ⟨by simp, by simp⟩ ?_ h
  intro l hl
  exact not_mem_of_mem_splitOnChar hl

/-! ## Reconciliation lemmas -/

/-- The configuration keys the policy chain writes. -/
def policyKeys : List Str :=
  [kWalLevel, kMaxWalSenders, kWalKeepSegments, kArchiveMode,
   kArchiveCommand, kStdConformingStrings, kByteaOutput]

/-- A document on which every `changed`-setting policy branch is
already satisfied (the `wal_level` branch never sets `changed`). -/
abbrev confRulesOk (auto : Bool) (profile : Doc) (d : Doc) : Prop :=
  (auto = true → ∀ p ∈ profile, pyStrOfOpt (dget d p.1) = p.2) ∧
  sendersBad (dget d kMaxWalSenders) = false ∧
  keepSegBad (dget d kWalKeepSegments) = false ∧
  archiveModeBad (dget d kArchiveMode) = false ∧
  archiveCmdBad (dget d kArchiveCommand) = false ∧
  scsBad (dget d kStdConformingStrings) = false ∧
  byteaBad (dget d kByteaOutput) = false

theorem ruleStep_dget_ne (key : Str) (bad : Option Str → Bool) (val : Str)
    (st : Doc × Bool) {k : Str} (h : k ≠ key) :
    dget (ruleStep key bad val st).1 k = dget st.1 k := by
  unfold ruleStep
  split
  · exact dget_dset_ne st.1 val (fun he => h he.symm)
  · rfl

theorem ruleStep_post (key : Str) (bad : Option Str → Bool) {val : Str}
    (h : bad (some val) = false) (st : Doc × Bool) :
    bad (dget (ruleStep key bad val st).1 key) = false := by
  unfold ruleStep
  split
  · rw [dget_dset_self]; exact h
  · rename_i hcond; simpa using hcond

theorem ruleStep_skip {key : Str} {bad : Option Str → Bool} {val : Str}
    {st : Doc × Bool} (h : bad (dget st.1 key) = false) :
    ruleStep key bad val st = st := by
  unfold ruleStep
  rw [h]
  simp

theorem walLevelStep_dget_ne (st : Doc × Bool) {k : Str} (h : k ≠ kWalLevel) :
    dget (walLevelStep st).1 k = dget st.1 k := by
  unfold walLevelStep
  split
  · exact dget_dset_ne st.1 _ (fun he => h he.symm)
  · rfl

theorem walLevelStep_snd (st : Doc × Bool) : (walLevelStep st).2 = st.2 := by
  unfold walLevelStep
  split <;> rfl

theorem tuneFold_cons (p : Str × Str) (ps : Doc) (st : Doc × Bool) :
    tuneFold (p :: ps) st = tuneFold ps
      (dset st.1 p.1 p.2,
       if st.2 = false ∧ pyStrOfOpt (dget st.1 p.1) ≠ p.2 then true else st.2) := rfl

theorem tuneFold_dget_not_mem :
    ∀ {profile : Doc} {k : Str}, k ∉ profile.map Prod.fst → ∀ st : Doc × Bool,
      dget (tuneFold profile st).1 k = dget st.1 k := by
  intro profile
  induction profile with
  | nil => intro k _ st; rfl
  | cons p ps ih =>
    intro k hk st
    have h1 : k ∉ ps.map Prod.fst := fun h => hk (List.mem_cons_of_mem _ h)
    have h2 : k ≠ p.1 := fun h => hk (by simp [h])
    rw [tuneFold_cons, ih h1, dget_dset_ne st.1 p.2 (fun he => h2 he.symm)]

theorem tuneFold_establish :
    ∀ {profile : Doc}, (profile.map Prod.fst).Nodup → ∀ st : Doc × Bool,
      ∀ p ∈ profile, dget (tuneFold profile st).1 p.1 = some p.2 := by
  intro profile
  induction profile with
  | nil => intro _ st p hp; cases hp
  | cons q ps ih =>
    intro hnd st p hp
    rcases List.mem_cons.mp hp with h | h
    · subst h
      have hq : p.1 ∉ ps.map Prod.fst := (List.nodup_cons.mp (by simpa using hnd)).1
      rw [tuneFold_cons, tuneFold_dget_not_mem hq, dget_dset_self]
    · rw [tuneFold_cons]
      exact ih (List.Nodup.of_cons hnd) _ p h

theorem tuneFold_flag :
    ∀ {profile : Doc}, (profile.map Prod.fst).Nodup → ∀ st : Doc × Bool,
      (∀ p ∈ profile, pyStrOfOpt (dget st.1 p.1) = p.2) →
      (tuneFold profile st).2 = st.2 := by
  intro profile
  induction profile with
  | nil => intro _ st _; rfl
  | cons q ps ih =>
    intro hnd st hok
    have hq : pyStrOfOpt (dget st.1 q.1) = q.2 := hok q (by simp)
    rw [tuneFold_cons]
    have hcond : ¬(st.2 = false ∧ pyStrOfOpt (dget st.1 q.1) ≠ q.2) := by
      intro hc
      exact hc.2 hq
    rw [if_neg hcond]
    have := ih (List.Nodup.of_cons hnd)
      (dset st.1 q.1 q.2, st.2) ?_
    · simpa using this
    · intro p hp
      have hne : p.1 ≠ q.1 := by
        intro he
        have hq1 : q.1 ∈ ps.map Prod.fst := he ▸ List.mem_map_of_mem Prod.fst hp
        exact (List.nodup_cons.mp (by simpa using hnd)).1 hq1
      show pyStrOfOpt (dget (dset st.1 q.1 q.2) p.1) = p.2
      rw [dget_dset_ne st.1 q.2 (fun he => hne he.symm)]
      exact hok p (List.mem_cons_of_mem _ hp)

theorem not_mem_profile_of_disjoint {profile : Doc} {k : Str}
    (hdisj : ∀ p ∈ profile, p.1 ∉ policyKeys) (hk : k ∈ policyKeys) :
    k ∉ profile.map Prod.fst := by
  intro hmem
  obtain ⟨p, hp, he⟩ := List.mem_map.mp hmem
  exact hdisj p hp (he ▸ hk)

theorem confReconcile_eq (auto : Bool) (profile : Doc) (conf0 : Doc) :
    confReconcile auto profile conf0 =
      ruleStep kByteaOutput byteaBad ("'escape'".toList)
        (ruleStep kStdConformingStrings scsBad ("'off'".toList)
          (ruleStep kArchiveCommand archiveCmdBad ("'/bin/true'".toList)
            (ruleStep kArchiveMode archiveModeBad ("on".toList)
              (ruleStep kWalKeepSegments keepSegBad ("64".toList)
                (ruleStep kMaxWalSenders sendersBad ("5".toList)
                  (walLevelStep (if auto then tuneFold profile (conf0, false)
                    else (conf0, false)))))))) := rfl

/-- After one `do_system_check` pass, every `changed`-setting policy
rule is satisfied in the resulting configuration. -/
theorem confReconcile_establishes (auto : Bool) (profile : Doc) (conf0 : Doc)
    (hnd : (profile.map Prod.fst).Nodup)
    (hdisj : ∀ p ∈ profile, p.1 ∉ policyKeys) :
    confRulesOk auto profile (confReconcile auto profile conf0).1 := by
  rw [confReconcile_eq]
  set st0 : Doc × Bool := if auto then tuneFold profile (conf0, false) else (conf0, false)
    with hst0
  set st1 := walLevelStep st0 with hst1
  set st2 := ruleStep kMaxWalSenders sendersBad ("5".toList) st1 with hst2
  set st3 := ruleStep kWalKeepSegments keepSegBad ("64".toList) st2 with hst3
  set st4 := ruleStep kArchiveMode archiveModeBad ("on".toList) st3 with hst4
  set st5 := ruleStep kArchiveCommand archiveCmdBad ("'/bin/true'".toList) st4 with hst5
  set st6 := ruleStep kStdConformingStrings scsBad ("'off'".toList) st5 with hst6
  refine ⟨?_, ?_, ?_, ?_, ?_, ?_, ?_⟩
  · -- autotuning values persist to the final configuration
    intro hauto p hp
    have hnp := hdisj p hp
    have hne : ∀ key ∈ policyKeys, p.1 ≠ key := fun key hk he => hnp (he ▸ hk)
    have h0 : dget st0.1 p.1 = some p.2 := by
      rw [hst0, hauto, if_pos rfl]
      exact tuneFold_establish hnd _ p hp
    rw [ruleStep_dget_ne _ _ _ _ (hne kByteaOutput (by simp [policyKeys])),
      hst6, ruleStep_dget_ne _ _ _ _ (hne kStdConformingStrings (by simp [policyKeys])),
      hst5, ruleStep_dget_ne _ _ _ _ (hne kArchiveCommand (by simp [policyKeys])),
      hst4, ruleStep_dget_ne _ _ _ _ (hne kArchiveMode (by simp [policyKeys])),
      hst3, ruleStep_dget_ne _ _ _ _ (hne kWalKeepSegments (by simp [policyKeys])),
      hst2, ruleStep_dget_ne _ _ _ _ (hne kMaxWalSenders (by simp [policyKeys])),
      hst1, walLevelStep_dget_ne st0 (hne kWalLevel (by simp [policyKeys])), h0]
    rfl
  · -- max_wal_senders
    have h2 : sendersBad (dget st2.1 kMaxWalSenders) = false :=
      ruleStep_post _ _ (by decide) st1
    rw [ruleStep_dget_ne _ _ _ _ (by decide : kMaxWalSenders ≠ kByteaOutput),
      hst6, ruleStep_dget_ne _ _ _ _ (by decide : kMaxWalSenders ≠ kStdConformingStrings),
      hst5, ruleStep_dget_ne _ _ _ _ (by decide : kMaxWalSenders ≠ kArchiveCommand),
      hst4, ruleStep_dget_ne _ _ _ _ (by decide : kMaxWalSenders ≠ kArchiveMode),
      hst3, ruleStep_dget_ne _ _ _ _ (by decide : kMaxWalSenders ≠ kWalKeepSegments)]
    exact h2
  · -- wal_keep_segments
    have h3 : keepSegBad (dget st3.1 kWalKeepSegments) = false :=
      ruleStep_post _ _ (by decide) st2
    rw [ruleStep_dget_ne _ _ _ _ (by decide : kWalKeepSegments ≠ kByteaOutput),
      hst6, ruleStep_dget_ne _ _ _ _ (by decide : kWalKeepSegments ≠ kStdConformingStrings),
      hst5, ruleStep_dget_ne _ _ _ _ (by decide : kWalKeepSegments ≠ kArchiveCommand),
      hst4, ruleStep_dget_ne _ _ _ _ (by decide : kWalKeepSegments ≠ kArchiveMode)]
    exact h3
  · -- archive_mode
    have h4 : archiveModeBad (dget st4.1 kArchiveMode) = false :=
      ruleStep_post _ _ (by decide) st3
    rw [ruleStep_dget_ne _ _ _ _ (by decide : kArchiveMode ≠ kByteaOutput),
      hst6, ruleStep_dget_ne _ _ _ _ (by decide : kArchiveMode ≠ kStdConformingStrings),
      hst5, ruleStep_dget_ne _ _ _ _ (by decide : kArchiveMode ≠ kArchiveCommand)]
    exact h4
  · -- archive_command
    have h5 : archiveCmdBad (dget st5.1 kArchiveCommand) = false :=
      ruleStep_post _ _ (by decide) st4
    rw [ruleStep_dget_ne _ _ _ _ (by decide : kArchiveCommand ≠ kByteaOutput),
      hst6, ruleStep_dget_ne _ _ _ _ (by decide : kArchiveCommand ≠ kStdConformingStrings)]
    exact h5
  · -- standard_conforming_strings
    have h6 : scsBad (dget st6.1 kStdConformingStrings) = false :=
      ruleStep_post _ _ (by decide) st5
    rw [ruleStep_dget_ne _ _ _ _ (by decide : kStdConformingStrings ≠ kByteaOutput)]
    exact h6
  · -- bytea_output
    exact ruleStep_post _ _ (by decide) st6

/-- On a configuration that already satisfies every `changed`-setting
policy rule, `do_system_check` reports `changed = false`. -/
theorem confReconcile_stable (auto : Bool) (profile : Doc) (d : Doc)
    (hok : confRulesOk auto profile d)
    (hnd : (profile.map Prod.fst).Nodup)
    (hdisj : ∀ p ∈ profile, p.1 ∉ policyKeys) :
    (confReconcile auto profile d).2 = false := by
  rw [confReconcile_eq]
  set st0 : Doc × Bool := if auto then tuneFold profile (d, false) else (d, false)
    with hst0
  have h0flag : st0.2 = false := by
    rw [hst0]
    cases auto with
    | false => rfl
    | true =>
      rw [if_pos rfl]
      rw [tuneFold_flag hnd (d, false) (hok.1 rfl)]
  have h0get : ∀ k ∈ policyKeys, dget st0.1 k = dget d k := by
    intro k hk
    rw [hst0]
    cases auto with
    | false => rfl
    | true =>
      rw [if_pos rfl]
      exact tuneFold_dget_not_mem (not_mem_profile_of_disjoint hdisj hk) (d, false)
  set st1 := walLevelStep st0 with hst1
  have h1get : ∀ k ∈ policyKeys, k ≠ kWalLevel → dget st1.1 k = dget d k := by
    intro k hk hkne
    rw [hst1, walLevelStep_dget_ne st0 hkne]
    exact h0get k hk
  have h2 : ruleStep kMaxWalSenders sendersBad ("5".toList) st1 = st1 :=
    ruleStep_skip (by
      rw [h1get kMaxWalSenders (by simp [policyKeys]) (by decide)]
      exact hok.2.1)
  have h3 : ruleStep kWalKeepSegments keepSegBad ("64".toList) st1 = st1 :=
    ruleStep_skip (by
      rw [h1get kWalKeepSegments (by simp [policyKeys]) (by decide)]
      exact hok.2.2.1)
  have h4 : ruleStep kArchiveMode archiveModeBad ("on".toList) st1 = st1 :=
    ruleStep_skip (by
      rw [h1get kArchiveMode (by simp [policyKeys]) (by decide)]
      exact hok.2.2.2.1)
  have h5 : ruleStep kArchiveCommand archiveCmdBad ("'/bin/true'".toList) st1 = st1 :=
    ruleStep_skip (by
      rw [h1get kArchiveCommand (by simp [policyKeys]) (by decide)]
      exact hok.2.2.2.2.1)
  have h6 : ruleStep kStdConformingStrings scsBad ("'off'".toList) st1 = st1 :=
    ruleStep_skip (by
      rw [h1get kStdConformingStrings (by simp [policyKeys]) (by decide)]
      exact hok.2.2.2.2.2.1)
  have h7 : ruleStep kByteaOutput byteaBad ("'escape'".toList) st1 = st1 :=
    ruleStep_skip (by
      rw [h1get kByteaOutput (by simp [policyKeys]) (by decide)]
      exact hok.2.2.2.2.2.2)
  rw [h2, h3, h4, h5, h6, h7, hst1, walLevelStep_snd, h0flag]

theorem hbaReconcile_mem (hba : List (List Str)) :
    replicationCfg ∈ (hbaReconcile hba).1 := by
  unfold hbaReconcile
  split
  · rename_i h; exact h
  · simp

theorem hbaReconcile_stable {hba : List (List Str)}
    (h : replicationCfg ∈ hba) : hbaReconcile hba = (hba, false) := by
  unfold hbaReconcile
  rw [if_pos h]

theorem cleanDoc_ruleStep (key : Str) (bad : Option Str → Bool) (val : Str)
    {st : Doc × Bool} (h : CleanDoc st.1) (hk : CleanKey key) (hv : CleanVal val) :
    CleanDoc (ruleStep key bad val st).1 := by
  unfold ruleStep
  split
  · exact cleanDoc_dset h hk hv
  · exact h

theorem cleanDoc_walLevelStep {st : Doc × Bool} (h : CleanDoc st.1) :
    CleanDoc (walLevelStep st).1 := by
  unfold walLevelStep
  split
  · exact cleanDoc_dset h (by decide) (by decide)
  · exact h

theorem cleanDoc_tuneFold :
    ∀ {profile : Doc}, (∀ p ∈ profile, CleanKey p.1 ∧ CleanVal p.2) →
      ∀ {st : Doc × Bool}, CleanDoc st.1 → CleanDoc (tuneFold profile st).1 := by
  intro profile
  induction profile with
  | nil => intro _ st h; exact h
  | cons q ps ih =>
    intro hprof st h
    rw [tuneFold_cons]
    exact ih (fun p hp => hprof p (List.mem_cons_of_mem _ hp))
      (cleanDoc_dset h (hprof q (by simp)).1 (hprof q (by simp)).2)

/-- The policy chain keeps documents clean, given a clean profile. -/
theorem cleanDoc_confReconcile (auto : Bool) (profile : Doc) {conf0 : Doc}
    (h : CleanDoc conf0) (hprof : ∀ p ∈ profile, CleanKey p.1 ∧ CleanVal p.2) :
    CleanDoc (confReconcile auto profile conf0).1 := by
  rw [confReconcile_eq]
  have h0 : CleanDoc (if auto then tuneFold profile (conf0, false)
      else (conf0, false)).1 := by
    cases auto with
    | false => exact h
    | true =>
      rw [if_pos rfl]
      exact cleanDoc_tuneFold hprof h
  exact cleanDoc_ruleStep _ _ _
    (cleanDoc_ruleStep _ _ _
      (cleanDoc_ruleStep _ _ _
        (cleanDoc_ruleStep _ _ _
          (cleanDoc_ruleStep _ _ _
            (cleanDoc_ruleStep _ _ _
              (cleanDoc_walLevelStep h0)
              (by decide) (by decide))
            (by decide) (by decide))
          (by decide) (by decide))
        (by decide) (by decide))
      (by decide) (by decide))
    (by decide) (by decide)

/-! ## pg_hba rendering lemmas -/

theorem renderHba_append (a b : List (List Str)) :
    renderHba (a ++ b) = renderHba a ++ renderHba b := by
  simp [renderHba]

theorem newline_not_mem_joinSep {row : List Str}
    (h : ∀ tok ∈ row, '\n' ∉ tok) : '\n' ∉ joinSep '\t' row := by
  induction row with
  | nil => simp [joinSep]
  | cons t ts ih =>
    cases ts with
    | nil => exact h t (by simp)
    | cons u us =>
      rw [joinSep_cons '\t' t (u :: us) (by simp)]
      intro hmem
      rcases List.mem_append.mp hmem with hm | hm
      · exact h t (by simp) hm
      · rcases List.mem_cons.mp hm with hm | hm
        · cases hm
        · exact ih (fun tok htok => h tok (List.mem_cons_of_mem _ htok)) hm

theorem parseHba_nil : parseHba [] = [] := rfl

theorem parseHba_rendered_append :
    ∀ {rows : List (List Str)},
      (∀ row ∈ rows, ∀ tok ∈ row, '\n' ∉ tok) → ∀ y : Str,
      parseHba (renderHba rows ++ y) = parseHba (renderHba rows) ++ parseHba y := by
  intro rows
  induction rows with
  | nil => intro _ y; simp [renderHba, parseHba_nil]
  | cons r rows' ih =>
    intro h y
    have hline : '\n' ∉ joinSep '\t' r :=
      newline_not_mem_joinSep (h r (by simp))
    have hr : ∀ z : Str, renderHba (r :: rows') ++ z
        = joinSep '\t' r ++ '\n' :: (renderHba rows' ++ z) := by
      intro z
      simp [renderHba, renderHbaLine]
    unfold parseHba
    rw [hr y, splitOnChar_append_sep hline, List.filterMap_cons]
    have hself : renderHba (r :: rows') = joinSep '\t' r ++ '\n' :: renderHba rows' := by
      simpa using hr []
    rw [hself, splitOnChar_append_sep hline, List.filterMap_cons]
    have ihy := ih (fun row hrow => h row (List.mem_cons_of_mem _ hrow)) y
    unfold parseHba at ihy
    cases parseHbaLine (joinSep '\t' r) with
    | none => exact ihy
    | some row => rw [ihy]; simp

theorem parseHba_tokens_no_newline {t : Str} :
    ∀ row ∈ parseHba t, ∀ tok ∈ row, '\n' ∉ tok := by
  intro row hrow tok htok hnl
  unfold parseHba at hrow
  obtain ⟨l, hl, hpl⟩ := List.mem_filterMap.mp hrow
  have hlnl : '\n' ∉ l := not_mem_of_mem_splitOnChar hl
  unfold parseHbaLine at hpl
  by_cases h1 : strip l = []
  · rw [if_pos h1] at hpl; cases hpl
  · rw [if_neg h1] at hpl
    by_cases h2 : (strip l).head? = some '#'
    · rw [if_pos h2] at hpl; cases hpl
    · rw [if_neg h2] at hpl
      injection hpl with hpl
      rw [← hpl] at htok
      have htok2 := List.mem_of_mem_filter htok
      have hc : '\n' ∈ (strip l).map (fun c => if c = '\t' then ' ' else c) :=
        mem_of_mem_splitOnChar htok2 hnl
      obtain ⟨x, hx, hxe⟩ := List.mem_map.mp hc
      have : x = '\n' := by
        by_cases hxt : x = '\t'
        · rw [hxt] at hxe; cases hxe
        · rw [if_neg hxt] at hxe; exact hxe
      exact hlnl (this ▸ mem_strip hx)

theorem hbaReconcile_of_not_mem {hba : List (List Str)}
    (h : replicationCfg ∉ hba) :
    hbaReconcile hba = (hba ++ [replicationCfg], true) := by
  unfold hbaReconcile
  rw [if_neg h]

theorem mem_of_hbaChanged_false {hba : List (List Str)}
    (h : (hbaReconcile hba).2 = false) : replicationCfg ∈ hba := by
  unfold hbaReconcile at h
  split at h
  · assumption
  · cases h

theorem parseHba_replication_line :
    parseHba (renderHba [replicationCfg]) = [replicationCfg] := by decide

/-- `do_system_check` at the file level, for a parseable
configuration file. -/
theorem systemCheckFile_eq_ok {a : Bool} {p : Doc} {ct ht : Str} {conf : Doc}
    (hp : get_conf ct = .ok conf) :
    systemCheckFile a p ct ht = some (systemCheckOut (confReconcile a p conf)
      (hbaReconcile (parseHba ht)) ct ht) := by
  unfold systemCheckFile
  rw [hp]

theorem systemCheckOut_changed (c : Doc × Bool) (h : List (List Str) × Bool)
    (ct ht : Str) : (systemCheckOut c h ct ht).changed = c.2 := rfl

theorem systemCheckOut_hbaChanged (c : Doc × Bool) (h : List (List Str) × Bool)
    (ct ht : Str) : (systemCheckOut c h ct ht).hbaChanged = h.2 := rfl

theorem systemCheckOut_confText (c : Doc × Bool) (h : List (List Str) × Bool)
    (ct ht : Str) : (systemCheckOut c h ct ht).confText =
      if c.2 then renderConf c.1 else ct := rfl

theorem systemCheckOut_hbaText (c : Doc × Bool) (h : List (List Str) × Bool)
    (ct ht : Str) : (systemCheckOut c h ct ht).hbaText =
      if h.2 then renderHba h.1 else ht := rfl

/-- Side conditions the real autotuning profile
(`PgTune().estimate().config`, lines 99-111) satisfies: pairwise
distinct keys, none of them a policy key, clean keys and values. -/
abbrev ProfileOk (profile : Doc) : Prop :=
  (profile.map Prod.fst).Nodup ∧
  (∀ p ∈ profile, p.1 ∉ policyKeys) ∧
  (∀ p ∈ profile, CleanKey p.1 ∧ CleanVal p.2)

/-- C5: Reconciliation is idempotent.  For every starting
configuration file and auth file and any well-formed autotuning
profile, if a `do_system_check` run succeeds (the configuration file
parses), a second run on the files it leaves behind reports
`changed = false` and `hba_changed = false`: nothing is rewritten and
no restart is triggered. -/
theorem c5_system_check_idempotent (auto : Bool) (profile : Doc)
    (confText hbaText : Str) (out1 : CheckFileOut)
    (hprof : ProfileOk profile)
    (h1 : systemCheckFile auto profile confText hbaText = some out1) :
    ∃ out2 : CheckFileOut,
      systemCheckFile auto profile out1.confText out1.hbaText = some out2 ∧
      out2.changed = false ∧ out2.hbaChanged = false := by
  obtain ⟨hnd, hdisj, hclean⟩ := hprof
  cases hp : get_conf confText with
  | error e =>
    rw [systemCheckFile, hp] at h1
    cases h1
  | ok conf =>
    rw [systemCheckFile_eq_ok hp] at h1
    injection h1 with h1
    subst h1
    rw [systemCheckOut_confText, systemCheckOut_hbaText]
    -- the configuration the second run reads
    have hconf2 : get_conf (if (confReconcile auto profile conf).2
        then renderConf (confReconcile auto profile conf).1 else confText) =
        .ok (if (confReconcile auto profile conf).2
          then (confReconcile auto profile conf).1 else conf) := by
      cases hc : (confReconcile auto profile conf).2 with
      | true =>
        simp only [hc, if_pos]
        exact get_conf_renderConf
          (cleanDoc_confReconcile auto profile (get_conf_clean hp) hclean)
      | false =>
        simpa using hp
    have hchanged2 : (confReconcile auto profile
        (if (confReconcile auto profile conf).2
          then (confReconcile auto profile conf).1 else conf)).2 = false := by
      cases hc : (confReconcile auto profile conf).2 with
      | true =>
        simp only [hc, if_pos]
        exact confReconcile_stable auto profile _
          (confReconcile_establishes auto profile conf hnd hdisj) hnd hdisj
      | false =>
        simpa using hc
    -- the auth table the second run reads
    have hrule2 : replicationCfg ∈ parseHba
        (if (hbaReconcile (parseHba hbaText)).2
          then renderHba (hbaReconcile (parseHba hbaText)).1 else hbaText) := by
      cases hh : (hbaReconcile (parseHba hbaText)).2 with
      | true =>
        have hnm : replicationCfg ∉ parseHba hbaText := by
          intro hm
          rw [hbaReconcile_stable hm] at hh
          cases hh
        simp only [hh, if_pos]
        rw [hbaReconcile_of_not_mem hnm, renderHba_append,
          parseHba_rendered_append (fun row hrow => parseHba_tokens_no_newline row hrow),
          parseHba_replication_line]
        simp
      | false =>
        simpa using mem_of_hbaChanged_false hh
    refine ⟨_, systemCheckFile_eq_ok hconf2, ?_, ?_⟩
    · rw [systemCheckOut_changed]
      exact hchanged2
    · rw [systemCheckOut_hbaChanged, hbaReconcile_stable hrule2]

/-- Closed instance of `c5_system_check_idempotent`: the first run on
empty files rewrites both; the second run reports no changes. -/
def c5Out1 : CheckFileOut :=
  ⟨true, true,
   ("wal_level = archive\nmax_wal_senders = 5\nwal_keep_segments = 64\n"
     ++ "archive_mode = on\narchive_command = '/bin/true'\n"
     ++ "standard_conforming_strings = 'off'\nbytea_output = 'escape'\n").toList,
   "local\treplication\tpostgres\tpeer\n".toList⟩

set_option maxRecDepth 8000 in
theorem c5_system_check_idempotent_witness :
    ∃ out2 : CheckFileOut,
      systemCheckFile false [] c5Out1.confText c5Out1.hbaText = some out2 ∧
      out2.changed = false ∧ out2.hbaChanged = false :=
  c5_system_check_idempotent false [] [] [] c5Out1 (by decide) (by decide)

/-- C7 (amended): for every configuration document with pairwise
distinct keys whose keys and values are whitespace-trimmed and free of
the comment character `#` and of newlines, and whose keys are free of
the separator `=` (values may contain `=`), writing the document with
`_write_conf` and reading the file back with `_get_conf` yields the
document written. -/
theorem c7_config_round_trip (d : Doc) (h : CleanDoc d) :
    get_conf (renderConf d) = .ok d :=
  get_conf_renderConf h

theorem c7_config_round_trip_witness :
    get_conf (renderConf [("shared_buffers".toList, "128MB".toList)]) =
      .ok [("shared_buffers".toList, "128MB".toList)] :=
  c7_config_round_trip [("shared_buffers".toList, "128MB".toList)] (by decide)

/-- C7 counterexample: the one-entry document mapping `k` to the value
`" x"` contains neither the separator `=` nor the comment character
`#` in its value, yet writing it and reading the file back yields the
value `"x"`: the round trip fails inside the claim's stated scope
because `_get_conf` strips the value. -/
theorem c7_config_round_trip_counterexample :
    (∀ c ∈ (' ' :: 'x' :: []), c ≠ '=' ∧ c ≠ '#') ∧
    get_conf (renderConf [("k".toList, (' ' :: 'x' :: []))]) ≠
      .ok [("k".toList, (' ' :: 'x' :: []))] ∧
    get_conf (renderConf [("k".toList, (' ' :: 'x' :: []))]) =
      .ok [("k".toList, ('x' :: []))] := by
  decide

/-- C10: rewriting a configuration file by reading and re-writing it
preserves only the key-to-value mapping, not the text: blank lines and
full-line comments are skipped by the reader, a duplicated key is read
without error with the last occurrence winning, trailing comments are
cut, and the re-rendered text differs from the original. -/
theorem c10_rewrite_preserves_only_mapping :
    (∀ (l : Str) (conf : Doc), strip l = [] → parseConfLine l conf = .ok conf) ∧
    (∀ (l : Str) (conf : Doc) (t : Str), strip l = '#' :: t →
      parseConfLine l conf = .ok conf) ∧
    get_conf ("# header\n\na = 1 # trailing\nb = 2\na = 3\n".toList) =
      .ok [("a".toList, "3".toList), ("b".toList, "2".toList)] ∧
    renderConf [("a".toList, "3".toList), ("b".toList, "2".toList)] =
      "a = 3\nb = 2\n".toList ∧
    renderConf [("a".toList, "3".toList), ("b".toList, "2".toList)] ≠
      ("# header\n\na = 1 # trailing\nb = 2\na = 3\n".toList) := by
  refine ⟨?_, ?_, by decide, by decide, by decide⟩
  · intro l conf h
    unfold parseConfLine
    rw [if_pos h]
  · intro l conf t h
    unfold parseConfLine
    rw [h]
    simp

theorem c10_rewrite_preserves_only_mapping_witness :
    parseConfLine ("   ".toList) [("a".toList, "1".toList)] =
      .ok [("a".toList, "1".toList)] ∧
    parseConfLine (" # note".toList) [] = .ok [] :=
  ⟨c10_rewrite_preserves_only_mapping.1 ("   ".toList) [("a".toList, "1".toList)]
      (by decide),
   c10_rewrite_preserves_only_mapping.2.1 (" # note".toList) [] (" note".toList)
      (by decide)⟩

theorem systemCheck_hba (a : Bool) (p : Doc) (c : Doc) (h : List (List Str)) :
    (systemCheck a p c h).hba = (hbaReconcile h).1 := rfl

theorem systemCheck_hbaChanged (a : Bool) (p : Doc) (c : Doc) (h : List (List Str)) :
    (systemCheck a p c h).hbaChanged = (hbaReconcile h).2 := rfl

/-- C8: for every auth table, if the replication peer rule
`{local, replication, postgres, peer}` is absent, one reconciliation
pass appends exactly that rule in final position (preserving the
relative order of all existing rows, which are kept verbatim as a
list), flags `hba_changed`, and the rule then occurs exactly once; a
table already containing the rule is returned unchanged with no flag. -/
theorem c8_hba_rule_insertion (auto : Bool) (profile : Doc) (conf : Doc)
    (hba : List (List Str)) :
    (replicationCfg ∉ hba →
      (systemCheck auto profile conf hba).hba = hba ++ [replicationCfg] ∧
      (systemCheck auto profile conf hba).hbaChanged = true ∧
      ((systemCheck auto profile conf hba).hba).count replicationCfg = 1) ∧
    (replicationCfg ∈ hba →
      (systemCheck auto profile conf hba).hba = hba ∧
      (systemCheck auto profile conf hba).hbaChanged = false) := by
  constructor
  · intro hnm
    rw [systemCheck_hba, systemCheck_hbaChanged, hbaReconcile_of_not_mem hnm]
    refine ⟨rfl, rfl, ?_⟩
    rw [List.count_append, List.count_eq_zero.mpr hnm]
    simp
  · intro hm
    rw [systemCheck_hba, systemCheck_hbaChanged, hbaReconcile_stable hm]
    exact ⟨rfl, rfl⟩

theorem c8_hba_rule_insertion_witness :
    ((systemCheck false [] [] []).hba = [] ++ [replicationCfg] ∧
      (systemCheck false [] [] []).hbaChanged = true ∧
      ((systemCheck false [] [] []).hba).count replicationCfg = 1) ∧
    ((systemCheck false [] [] [replicationCfg]).hba = [replicationCfg] ∧
      (systemCheck false [] [] [replicationCfg]).hbaChanged = false) :=
  ⟨(c8_hba_rule_insertion false [] [] []).1 (by decide),
   (c8_hba_rule_insertion false [] [] [replicationCfg]).2 (by decide)⟩

/-- C1 counterexample: with current cluster size 100 GiB, backup size
40 GiB and 60 GiB available, the specification's formula
`available − current × 0.134 − backup ≥ 1 GiB` holds (6.6 GiB margin),
yet `do_backup_restore` aborts with the disk-space diagnostic, because
the code's check (line 628) subtracts the full current size without
the compression ratio. -/
theorem c1_restore_precondition_counterexample :
    specRestorePreconditionOk (60 * 2 ^ 30) (100 * 2 ^ 30) (40 * 2 ^ 30) ∧
    do_backup_restore
        ⟨"/backup".toList, true, 100 * 2 ^ 30, 40 * 2 ^ 30, 60 * 2 ^ 30⟩ =
      .error ("At least 1GB free disk space required after backup restoration.".toList) := by
  constructor
  · show (1000 : Int) * (60 * 2 ^ 30) - 134 * (100 * 2 ^ 30) - 1000 * (40 * 2 ^ 30)
      ≥ 1000 * oneGiB
    norm_num [oneGiB]
  · rfl

/-- C1 (amended): when a backup is configured, the restore
precondition check passes if and only if
`available − current_size − backup_size ≥ 1 GiB` (the 0.134 ratio of
line 610 appears only in the printed "Predicted space" estimate, not
in the check); when it fails, the restore aborts with the disk-space
diagnostic and performs none of the destructive steps (no shutdown, no
quarantine, no replacement, no start). -/
theorem c1_restore_precondition (env : RestoreEnv) (h : env.backupOn = true) :
    (do_backup_restore env =
        .ok [.shutdownDb, .saveCurrentCluster, .replaceNewBackup, .dbStart] ↔
      env.diskSize - env.currTsSize - env.bckpTsSize ≥ oneGiB) ∧
    (env.diskSize - env.currTsSize - env.bckpTsSize < oneGiB →
      do_backup_restore env =
        .error ("At least 1GB free disk space required after backup restoration.".toList)) := by
  have h1 : do_backup_restore env =
      if env.diskSize - env.currTsSize - env.bckpTsSize < oneGiB
      then .error ("At least 1GB free disk space required after backup restoration.".toList)
      else .ok [.shutdownDb, .saveCurrentCluster, .replaceNewBackup, .dbStart] := by
    unfold do_backup_restore
    rw [h]
    simp
  rw [h1]
  constructor
  · constructor
    · intro hok
      by_contra hge
      rw [if_pos (by omega)] at hok
      cases hok
    · intro hge
      rw [if_neg (by omega)]
  · intro hlt
    rw [if_pos hlt]

theorem c1_restore_precondition_witness :
    do_backup_restore ⟨"/backup".toList, true, 100 * 2 ^ 30, 40 * 2 ^ 30, 160 * 2 ^ 30⟩ =
      .ok [.shutdownDb, .saveCurrentCluster, .replaceNewBackup, .dbStart] :=
  (c1_restore_precondition
    ⟨"/backup".toList, true, 100 * 2 ^ 30, 40 * 2 ^ 30, 160 * 2 ^ 30⟩ rfl).1.mpr
    (by norm_num [oneGiB])

/-- Sample filesystem for the `_write_conf` contract evaluation: one
existing configuration file. -/
def c2Path : Str := "/var/lib/pgsql/data/postgresql.conf".toList

def c2Content : Str := "a = 1\n".toList

def c2Pref : Str := "2026-10-12-00-00-00".toList

/-- C2: the `_write_conf` contract cases are inverted in the code.
Called with NEITHER a key-value document nor a table on an existing
path, it is not a no-op: it renames the file away to the timestamped
backup (the path no longer exists afterwards) and then raises the
`IOError` whose message describes the both-supplied case.  Called with
BOTH a document and a table, it reports no error and silently replaces
the file with an empty one. -/
theorem c2_write_conf_contract :
    (write_conf [(c2Path, c2Content)] c2Path [] [] c2Pref).ioError = true ∧
    dget (write_conf [(c2Path, c2Content)] c2Path [] [] c2Pref).fs c2Path = none ∧
    (write_conf [(c2Path, c2Content)] c2Path [] [] c2Pref).fs ≠ [(c2Path, c2Content)] ∧
    (write_conf [(c2Path, c2Content)] c2Path
        [replicationCfg] [("a".toList, "1".toList)] c2Pref).ioError = false ∧
    dget (write_conf [(c2Path, c2Content)] c2Path
        [replicationCfg] [("a".toList, "1".toList)] c2Pref).fs c2Path = some [] := by
  decide

/-- postgresql.conf with `wal_level = minimal` and every other policy
rule already satisfied. -/
def c3ConfText : Str :=
  ("wal_level = minimal\nmax_wal_senders = 5\nwal_keep_segments = 64\n"
    ++ "archive_mode = on\narchive_command = '/bin/true'\n"
    ++ "standard_conforming_strings = 'off'\nbytea_output = 'escape'\n").toList

def c3HbaText : Str := "local replication postgres peer\n".toList

def c3Doc : Doc :=
  [(kWalLevel, "minimal".toList), (kMaxWalSenders, "5".toList),
   (kWalKeepSegments, "64".toList), (kArchiveMode, "on".toList),
   (kArchiveCommand, "'/bin/true'".toList),
   (kStdConformingStrings, "'off'".toList), (kByteaOutput, "'escape'".toList)]

set_option maxRecDepth 8000 in
/-- C3: on a configuration whose WAL level is `minimal` while every
other policy rule is satisfied, `do_system_check` overrides the WAL
level to `archive` in memory but does NOT flag the configuration as
changed (the `wal_level` branch of lines 820-822 omits
`changed = True`): nothing is persisted, the file texts stay as they
were, and no restart happens.  This contradicts the specified apply
step. -/
theorem c3_wal_level_change_not_flagged :
    get_conf c3ConfText = .ok c3Doc ∧
    (confReconcile false [] c3Doc).2 = false ∧
    dget (confReconcile false [] c3Doc).1 kWalLevel = some ("archive".toList) ∧
    systemCheckFile false [] c3ConfText c3HbaText =
      some ⟨false, false, c3ConfText, c3HbaText⟩ := by
  decide

/-- postgresql.conf with `max_wal_senders = 10` and every other policy
rule already satisfied. -/
def c4Doc : Doc :=
  [(kWalLevel, "archive".toList), (kMaxWalSenders, "10".toList),
   (kWalKeepSegments, "64".toList), (kArchiveMode, "on".toList),
   (kArchiveCommand, "'/bin/true'".toList),
   (kStdConformingStrings, "'off'".toList), (kByteaOutput, "'escape'".toList)]

set_option maxRecDepth 8000 in
/-- C4: a WAL sender count of 10 is numerically at least 5, but
line 825 compares the configuration strings with Python 2's
lexicographic `<`, under which `'10' < '5'`, so `do_system_check`
overrides the value to 5 and flags the configuration as changed —
contradicting the claim that compliant values are left untouched. -/
theorem c4_wal_senders_string_compare :
    (5 : Nat) ≤ 10 ∧
    pyStrLt ("10".toList) ("5".toList) = true ∧
    (confReconcile false [] c4Doc).2 = true ∧
    dget (confReconcile false [] c4Doc).1 kMaxWalSenders = some ("5".toList) := by
  decide

theorem backupPath_length (path pref : Str) :
    path.length < (backupPath path pref).length := by
  have hne := splitOnChar_ne_nil '.' path
  rcases List.eq_nil_or_concat' (splitOnChar '.' path) with h | ⟨L, b, h⟩
  · exact absurd h hne
  · have hpath : joinSep '.' (splitOnChar '.' path) = path := joinSep_splitOnChar '.' path
    rw [h, joinSep_concat] at hpath
    simp only [backupPath]
    rw [h, List.dropLast_concat]
    have hlast : (L ++ [b]).getLast?.getD [] = b := by
      rw [List.getLast?_concat]
      rfl
    rw [hlast]
    by_cases hL : L = []
    · subst hL
      rw [if_pos rfl] at hpath
      subst hpath
      simp [joinSep]
      omega
    · rw [if_neg hL] at hpath
      rw [← hpath]
      simp
      omega

theorem write_conf_exists_eq {fs0 : FS} {path content : Str}
    (hc : dget fs0 path = some content) (table : List (List Str)) (data : Doc)
    (pref : Str) (hmode : data ≠ [] ∨ table ≠ []) :
    write_conf fs0 path table data pref =
      ⟨dset (dset (dremove fs0 path) (backupPath path pref) content) path
        (if data ≠ [] ∧ table = [] then renderConf data
         else if table ≠ [] ∧ data = [] then renderHba table else []),
       some (backupPath path pref), false⟩ := by
  unfold write_conf
  rw [hc, if_pos hmode]

theorem write_conf_missing_eq {fs0 : FS} {path : Str}
    (hc : dget fs0 path = none) (table : List (List Str)) (data : Doc)
    (pref : Str) (hmode : data ≠ [] ∨ table ≠ []) :
    write_conf fs0 path table data pref =
      ⟨dset fs0 path
        (if data ≠ [] ∧ table = [] then renderConf data
         else if table ≠ [] ∧ data = [] then renderHba table else []),
       none, false⟩ := by
  unfold write_conf
  rw [hc, if_pos hmode]

/-- C6: for every proper `_write_conf` call (a key-value document or a
table, not both, not neither) on a path that exists, the previous file
is renamed to exactly one timestamped backup sibling whose name is the
path with the timestamp inserted before the extension; the backup's
content equals the pre-write content, the backup path (strictly longer
than the path) is returned, and the rest of the filesystem is the old
one minus the path plus the newly rendered file.  When the path did
not exist, no backup is created and none is returned. -/
theorem c6_write_conf_backup (fs0 : FS) (path : Str) (table : List (List Str))
    (data : Doc) (pref : Str)
    (hmode : (data ≠ [] ∧ table = []) ∨ (table ≠ [] ∧ data = [])) :
    (∀ content : Str, dget fs0 path = some content →
      write_conf fs0 path table data pref =
        ⟨dset (dset (dremove fs0 path) (backupPath path pref) content) path
          (if data ≠ [] then renderConf data else renderHba table),
         some (backupPath path pref), false⟩ ∧
      backupPath path pref ≠ path ∧
      dget (write_conf fs0 path table data pref).fs (backupPath path pref) =
        some content) ∧
    (dget fs0 path = none →
      write_conf fs0 path table data pref =
        ⟨dset fs0 path (if data ≠ [] then renderConf data else renderHba table),
         none, false⟩) := by
  have hbkne : backupPath path pref ≠ path := by
    intro he
    have h1 := congrArg List.length he
    have h2 := backupPath_length path pref
    omega
  have hor : data ≠ [] ∨ table ≠ [] := by tauto
  have hcontent : (if data ≠ [] ∧ table = [] then renderConf data
      else if table ≠ [] ∧ data = [] then renderHba table else []) =
      (if data ≠ [] then renderConf data else renderHba table) := by
    rcases hmode with ⟨h1, h2⟩ | ⟨h1, h2⟩
    · rw [if_pos ⟨h1, h2⟩, if_pos h1]
    · rw [if_neg (fun hc => hc.1 h2), if_pos ⟨h1, h2⟩, if_neg (fun hc => hc h2)]
  constructor
  · intro content hc
    have hw := write_conf_exists_eq hc table data pref hor
    rw [hcontent] at hw
    refine ⟨hw, hbkne, ?_⟩
    rw [hw]
    show dget (dset (dset (dremove fs0 path) (backupPath path pref) content) path
      (if data ≠ [] then renderConf data else renderHba table)) (backupPath path pref)
      = some content
    rw [dget_dset_ne _ _ (fun he => hbkne he.symm), dget_dset_self]
  · intro hc
    have hw := write_conf_missing_eq hc table data pref hor
    rw [hcontent] at hw
    exact hw

theorem c6_write_conf_backup_witness :
    backupPath c2Path c2Pref ≠ c2Path ∧
    dget (write_conf [(c2Path, c2Content)] c2Path [] [("a".toList, "2".toList)]
      c2Pref).fs (backupPath c2Path c2Pref) = some c2Content ∧
    (write_conf [] c2Path [] [("a".toList, "2".toList)] c2Pref).backup = none := by
  have h := c6_write_conf_backup [(c2Path, c2Content)] c2Path []
    [("a".toList, "2".toList)] c2Pref (Or.inl ⟨by decide, rfl⟩)
  have h1 := h.1 c2Content (by decide)
  have h2 := (c6_write_conf_backup [] c2Path [] [("a".toList, "2".toList)] c2Pref
    (Or.inl ⟨by decide, rfl⟩)).2 rfl
  exact ⟨h1.2.1, h1.2.2, by rw [h2]⟩

/-! ## Archival controller lemmas -/

theorem cmdOn_ne_nil (dir : Str) : cmdOn dir ≠ [] := by
  simp [cmdOn, cmdOnHead]

theorem cmdOn_ne_cmdOff (dir : Str) : cmdOn dir ≠ cmdOff := by
  intro h
  have hl := congrArg List.length h
  have h1 : cmdOnMid.length = 54 := by decide
  have h2 : cmdOnTail.length = 5 := by decide
  have h3 : cmdOff.length = 11 := by decide
  simp [cmdOn, cmdOnHead, h3] at hl
  omega

theorem cmdOn_cleanVal {dir : Str} (hdir : ∀ c ∈ dir, c ≠ '#' ∧ c ≠ '\n') :
    CleanVal (cmdOn dir) := by
  constructor
  · have hh : cmdOn dir = '\'' :: (cmdOnMid ++ dir ++ cmdOnTail) := by
      simp [cmdOn, cmdOnHead]
    have hl : cmdOn dir = (cmdOnHead ++ dir ++ "/%f\"".toList) ++ ['\''] := by
      simp [cmdOn, cmdOnTail]
    unfold strip
    rw [hh, lstrip_cons_of_not_space (by decide), ← hh, hl,
      rstrip_concat_of_not_space (by decide), ← hl]
  · intro c hc
    have hmid : ∀ c ∈ cmdOnHead, c ≠ '#' ∧ c ≠ '\n' := by decide
    have htail : ∀ c ∈ cmdOnTail, c ≠ '#' ∧ c ≠ '\n' := by decide
    simp only [cmdOn, List.append_assoc, List.mem_append] at hc
    rcases hc with hc | hc | hc
    · exact hmid c hc
    · exact hdir c hc
    · exact htail c hc

theorem dget_some_of_getD {c : Doc} {k v : Str}
    (h : (dget c k).getD [] = v) (hne : v ≠ []) : dget c k = some v := by
  cases hd : dget c k with
  | none =>
    rw [hd] at h
    simp at h
    exact absurd h hne
  | some w =>
    rw [hd] at h
    simp at h
    rw [h]

/-- One `enable` call at the file level: it restarts exactly when the
archive command differed, and afterwards the persisted configuration
carries the enabled command. -/
theorem enableStepFile_on {confText : Str} {conf : Doc} (dir : Str)
    (hp : get_conf confText = .ok conf) (hclean : CleanDoc conf)
    (hdir : ∀ c ∈ dir, c ≠ '#' ∧ c ≠ '\n') :
    ∃ t' : Str, ∃ conf' : Doc,
      enableStepFile true dir confText =
        some (t', decide ((dget conf kArchiveCommand).getD [] ≠ cmdOn dir)) ∧
      get_conf t' = .ok conf' ∧ CleanDoc conf' ∧
      dget conf' kArchiveCommand = some (cmdOn dir) := by
  by_cases hc : (dget conf kArchiveCommand).getD [] ≠ cmdOn dir
  · refine ⟨renderConf (dset conf kArchiveCommand (cmdOn dir)),
      dset conf kArchiveCommand (cmdOn dir), ?_, ?_, ?_, ?_⟩
    · simp [enableStepFile, hp, perform_enable_backups_cmd, hc]
    · exact get_conf_renderConf (cleanDoc_dset hclean (by decide) (cmdOn_cleanVal hdir))
    · exact cleanDoc_dset hclean (by decide) (cmdOn_cleanVal hdir)
    · exact dget_dset_self conf kArchiveCommand (cmdOn dir)
  · have heq : (dget conf kArchiveCommand).getD [] = cmdOn dir := not_not.mp hc
    refine ⟨confText, conf, ?_, hp, hclean, dget_some_of_getD heq (cmdOn_ne_nil dir)⟩
    simp [enableStepFile, hp, perform_enable_backups_cmd, hc]

/-- One `disable` call at the file level, with the same shape. -/
theorem enableStepFile_off {confText : Str} {conf : Doc} (dir : Str)
    (hp : get_conf confText = .ok conf) (hclean : CleanDoc conf) :
    ∃ t' : Str, ∃ conf' : Doc,
      enableStepFile false dir confText =
        some (t', decide ((dget conf kArchiveCommand).getD [] ≠ cmdOff)) ∧
      get_conf t' = .ok conf' ∧ CleanDoc conf' ∧
      dget conf' kArchiveCommand = some cmdOff := by
  by_cases hc : (dget conf kArchiveCommand).getD [] ≠ cmdOff
  · refine ⟨renderConf (dset conf kArchiveCommand cmdOff),
      dset conf kArchiveCommand cmdOff, ?_, ?_, ?_, ?_⟩
    · simp [enableStepFile, hp, perform_enable_backups_cmd, hc]
    · exact get_conf_renderConf (cleanDoc_dset hclean (by decide) (by decide))
    · exact cleanDoc_dset hclean (by decide) (by decide)
    · exact dget_dset_self conf kArchiveCommand cmdOff
  · have heq : (dget conf kArchiveCommand).getD [] = cmdOff := not_not.mp hc
    refine ⟨confText, conf, ?_, hp, hclean, dget_some_of_getD heq (by decide)⟩
    simp [enableStepFile, hp, perform_enable_backups_cmd, hc]

/-- C9: each `_perform_enable_backups` call rewrites the archive
command and restarts the database exactly when the current command
differs from the required value (the enabled command referencing the
destination directory, or the `'/bin/true'` sentinel for disable); and
the sequence enable, disable, enable restores the enabled command,
with the first call restarting only when the initial value was not
already the enabled command and the two later calls each restarting
once for their actual command change. -/
theorem c9_archival_enable_disable_enable (dir confText : Str) (conf0 : Doc)
    (hparse : get_conf confText = .ok conf0)
    (hdir : ∀ c ∈ dir, c ≠ '#' ∧ c ≠ '\n') :
    (∀ (enableOn : Bool) (d : Str) (c : Doc),
      (perform_enable_backups_cmd enableOn d c).restarted =
        decide ((dget c kArchiveCommand).getD [] ≠
          (if enableOn then cmdOn d else cmdOff))) ∧
    ∃ t1 t2 t3 : Str,
      enableStepFile true dir confText =
        some (t1, decide ((dget conf0 kArchiveCommand).getD [] ≠ cmdOn dir)) ∧
      enableStepFile false dir t1 = some (t2, true) ∧
      enableStepFile true dir t2 = some (t3, true) ∧
      ∃ conf3 : Doc, get_conf t3 = .ok conf3 ∧
        dget conf3 kArchiveCommand = some (cmdOn dir) := by
  constructor
  · intro e d c
    cases e with
    | true =>
      by_cases hc : (dget c kArchiveCommand).getD [] ≠ cmdOn d
      · simp [perform_enable_backups_cmd, hc]
      · have heq := not_not.mp hc
        simp [perform_enable_backups_cmd, heq]
    | false =>
      by_cases hc : (dget c kArchiveCommand).getD [] ≠ cmdOff
      · simp [perform_enable_backups_cmd, hc]
      · have heq := not_not.mp hc
        simp [perform_enable_backups_cmd, heq]
  · obtain ⟨t1, conf1, h1, hp1, hc1, hv1⟩ :=
      enableStepFile_on dir hparse (get_conf_clean hparse) hdir
    obtain ⟨t2, conf2, h2, hp2, hc2, hv2⟩ := enableStepFile_off dir hp1 hc1
    obtain ⟨t3, conf3, h3, hp3, hc3, hv3⟩ := enableStepFile_on dir hp2 hc2 hdir
    refine ⟨t1, t2, t3, h1, ?_, ?_, conf3, hp3, hv3⟩
    · rw [h2, hv1]
      have : decide ((cmdOn dir : Str) ≠ cmdOff) = true := by
        simp [cmdOn_ne_cmdOff dir]
      simp only [Option.getD_some, this]
    · rw [h3, hv2]
      have : decide ((cmdOff : Str) ≠ cmdOn dir) = true := by
        simp
        exact fun he => cmdOn_ne_cmdOff dir he.symm
      simp only [Option.getD_some, this]

theorem c9_archival_enable_disable_enable_witness :
    ∃ t1 t2 t3 : Str,
      enableStepFile true ("/backup".toList) [] =
        some (t1, decide ((dget ([] : Doc) kArchiveCommand).getD []
          ≠ cmdOn ("/backup".toList))) ∧
      enableStepFile false ("/backup".toList) t1 = some (t2, true) ∧
      enableStepFile true ("/backup".toList) t2 = some (t3, true) ∧
      ∃ conf3 : Doc, get_conf t3 = .ok conf3 ∧
        dget conf3 kArchiveCommand = some (cmdOn ("/backup".toList)) :=
  (c9_archival_enable_disable_enable ("/backup".toList) [] [] rfl (by decide)).2

end Smdba
